import Mathlib

/-!
Verification development for the hunter-agent lead-generation pipeline.

The Lean definitions below are a shallow embedding of the Python sources:
  * `src/deduplicator.py`   — text normalizer, entity extractor, similarity engine,
    duplicate detection (including the `difflib.SequenceMatcher` algorithm it calls,
    modelled from CPython's `Lib/difflib.py`);
  * `src/semantic_filter.py` — embedding-based relevance filter (the sentence
    transformer `encode` and the float values are abstracted: vectors become an
    arbitrary type, cosine similarity a parameter, floats become `ℚ`);
  * `src/agent.py`          — call-budget router and the per-item orchestration step;
  * `src/database.py`       — the store operations the orchestrator uses, modelled
    over an in-memory list of rows;
  * `src/slack_notifier.py` — the notifier's channel resolution and strict field
    validation.

Python strings are modelled as `String`/`List Char` with ASCII plus the Spanish
accented letters (the corpus of this program is Spanish/English); floats as `ℚ`;
dicts parsed from JSON as association lists.
-/

set_option maxHeartbeats 1000000

namespace Hunter

/-! ## Character classes

Models of Python's `str.lower`, `\w`, `\s`, `\d` for the characters this
program actually handles (ASCII plus `áéíóúñÁÉÍÓÚÑ`, the letters named in the
source's own regexes). -/

def accentUpper : List Char := ['Á', 'É', 'Í', 'Ó', 'Ú', 'Ñ']

def accentLower : List Char := ['á', 'é', 'í', 'ó', 'ú', 'ñ']

/-- Model of Python `str.lower` on the supported alphabet. -/
def pyToLower (c : Char) : Char :=
  if c = 'Á' then 'á' else if c = 'É' then 'é' else if c = 'Í' then 'í'
  else if c = 'Ó' then 'ó' else if c = 'Ú' then 'ú' else if c = 'Ñ' then 'ñ'
  else c.toLower

/-- Model of Python regex `\w` (word character). -/
def pyWordChar (c : Char) : Bool :=
  c.isAlphanum || c = '_' || accentUpper.contains c || accentLower.contains c

/-- Model of Python regex `\s` / `str.split()` whitespace. -/
def pySpace (c : Char) : Bool :=
  c = ' ' || c = '\t' || c = '\n' || c = '\r' || c = '\x0b' || c = '\x0c'

/-! ## `normalize_text`  (src/deduplicator.py lines 23-63)

Each `re.sub` of the source becomes one recursive function. -/

/-- Strip a literal prefix; on success return the remaining suffix. -/
def dropPrefixChars : List Char → List Char → Option (List Char)
  | [], cs => some cs
  | _ :: _, [] => none
  | p :: ps, c :: cs => if c = p then dropPrefixChars ps cs else none

/-- One attempted match of `http[s]?://\S+` starting exactly at the head of `cs`
(`[s]?` greedy, then the literal `://`, then at least one non-space, greedy).
Returns the suffix after the match. -/
def tryURL (cs : List Char) : Option (List Char) :=
  let after :=
    match dropPrefixChars "https://".data cs with
    | some r => some r
    | none => dropPrefixChars "http://".data cs
  match after with
  | none => none
  | some r =>
    match r.takeWhile (fun c => !(pySpace c)) with
    | [] => none
    | _ :: _ => some (r.dropWhile (fun c => !(pySpace c)))

theorem length_dropWhile_le {α : Type} (p : α → Bool) (l : List α) :
    (l.dropWhile p).length ≤ l.length := by
  induction l with
  | nil => simp [List.dropWhile]
  | cons a l ih =>
    by_cases h : p a
    · simp [List.dropWhile, h]; omega
    · simp [List.dropWhile, h]

theorem dropPrefixChars_length {ps cs r : List Char}
    (h : dropPrefixChars ps cs = some r) : r.length + ps.length = cs.length := by
  induction ps generalizing cs with
  | nil => simp [dropPrefixChars] at h; simp [h]
  | cons p ps ih =>
    cases cs with
    | nil => simp [dropPrefixChars] at h
    | cons c cs =>
      simp [dropPrefixChars] at h
      rcases h with ⟨-, h⟩
      have := ih h
      simp; omega

theorem tryURL_some_length {cs r : List Char} (h : tryURL cs = some r) :
    r.length < cs.length := by
  unfold tryURL at h
  rcases hd : dropPrefixChars "https://".data cs with _ | r1
  · rcases hd2 : dropPrefixChars "http://".data cs with _ | r2
    · simp [hd, hd2] at h
    · have hl := dropPrefixChars_length hd2
      simp [hd, hd2] at h
      rcases ht : r2.takeWhile (fun c => !(pySpace c)) with _ | ⟨x, xs⟩
      · simp [ht] at h
      · simp [ht] at h
        have hle : r.length ≤ r2.length := h ▸ length_dropWhile_le _ _
        simp at hl
        omega
  · have hl := dropPrefixChars_length hd
    simp [hd] at h
    rcases ht : r1.takeWhile (fun c => !(pySpace c)) with _ | ⟨x, xs⟩
    · simp [ht] at h
    · simp [ht] at h
      have hle : r.length ≤ r1.length := h ▸ length_dropWhile_le _ _
      simp at hl
      omega

/-- Fuel-indexed implementation of URL removal; the fuel only makes the
recursion structural (so that the kernel can evaluate it) and is never
exhausted when it starts at the list's length. -/
def removeURLsF : Nat → List Char → List Char
  | 0, _ => []
  | _, [] => []
  | fuel + 1, c :: rest =>
    match tryURL (c :: rest) with
    | some r => removeURLsF fuel r
    | none => c :: removeURLsF fuel rest

/-- `re.sub(r'http[s]?://\S+', '', text)`: leftmost non-overlapping matches removed. -/
def removeURLs (cs : List Char) : List Char := removeURLsF cs.length cs

theorem removeURLsF_fuel : ∀ (f1 f2 : Nat) (cs : List Char), cs.length ≤ f1 →
    cs.length ≤ f2 → removeURLsF f1 cs = removeURLsF f2 cs := by
  intro f1
  induction f1 with
  | zero =>
    intro f2 cs h1 _
    have : cs = [] := List.eq_nil_of_length_eq_zero (by omega)
    subst this
    cases f2 <;> rfl
  | succ g1 ih =>
    intro f2 cs h1 h2
    cases cs with
    | nil => cases f2 <;> rfl
    | cons c rest =>
      cases f2 with
      | zero => simp at h2
      | succ g2 =>
        rw [removeURLsF, removeURLsF]
        rcases ht : tryURL (c :: rest) with _ | r
        · have hlen : rest.length ≤ g1 ∧ rest.length ≤ g2 := by
            simp at h1 h2; omega
          dsimp only
          rw [ih g2 rest hlen.1 hlen.2]
        · have hr := tryURL_some_length ht
          have hlen : r.length ≤ g1 ∧ r.length ≤ g2 := by
            simp at h1 h2 hr; omega
          dsimp only
          rw [ih g2 r hlen.1 hlen.2]

theorem removeURLs_nil : removeURLs [] = [] := rfl

theorem removeURLs_cons (c : Char) (rest : List Char) :
    removeURLs (c :: rest) =
      (match tryURL (c :: rest) with
       | some r => removeURLs r
       | none => c :: removeURLs rest) := by
  unfold removeURLs
  rw [show (c :: rest).length = rest.length + 1 from by simp, removeURLsF]
  rcases ht : tryURL (c :: rest) with _ | r
  · rfl
  · have hr := tryURL_some_length ht
    exact removeURLsF_fuel rest.length r.length r (by simp at hr; omega) (le_refl _)

/-- `re.sub(r'[^\w\s]', ' ', text)`. -/
def punctToSpace (cs : List Char) : List Char :=
  cs.map fun c => if pyWordChar c || pySpace c then c else ' '

/-- Fuel-indexed implementation of `re.sub(r'\b\d+\b', '', text)` (the fuel
only makes the recursion structural and is never exhausted). -/
def removeNumsF : Nat → Bool → List Char → List Char
  | 0, _, _ => []
  | _, _, [] => []
  | fuel + 1, prev, c :: rest =>
    if c.isDigit && !prev then
      match (c :: rest).dropWhile Char.isDigit with
      | [] => []
      | d :: rest' =>
        if pyWordChar d then
          (c :: rest).takeWhile Char.isDigit ++ removeNumsF fuel true (d :: rest')
        else removeNumsF fuel true (d :: rest')
    else c :: removeNumsF fuel (pyWordChar c) rest

/-- `re.sub(r'\b\d+\b', '', text)`, specialised to strings whose characters are
all word characters or whitespace (which is what reaches this step).  The flag
carries whether the previous character of the original string is a word
character, so the scanner can decide the `\b` on the left; a maximal digit run
is removed exactly when a word boundary precedes and follows it. -/
def removeNums (prev : Bool) (cs : List Char) : List Char := removeNumsF cs.length prev cs

theorem dropWhile_digit_cons {c : Char} {rest : List Char} {d : Char} {rest' : List Char}
    (hc : c.isDigit = true)
    (h : (c :: rest).dropWhile Char.isDigit = d :: rest') :
    (d :: rest').length ≤ rest.length := by
  rw [List.dropWhile_cons, if_pos hc] at h
  have := h ▸ length_dropWhile_le Char.isDigit rest
  exact this

theorem removeNumsF_fuel : ∀ (f1 f2 : Nat) (prev : Bool) (cs : List Char),
    cs.length ≤ f1 → cs.length ≤ f2 →
    removeNumsF f1 prev cs = removeNumsF f2 prev cs := by
  intro f1
  induction f1 with
  | zero =>
    intro f2 prev cs h1 _
    have : cs = [] := List.eq_nil_of_length_eq_zero (by omega)
    subst this
    cases f2 <;> rfl
  | succ g1 ih =>
    intro f2 prev cs h1 h2
    cases cs with
    | nil => cases f2 <;> rfl
    | cons c rest =>
      cases f2 with
      | zero => simp at h2
      | succ g2 =>
        rw [removeNumsF, removeNumsF]
        by_cases hcd : (c.isDigit && !prev) = true
        · rw [if_pos hcd, if_pos hcd]
          rcases hdw : (c :: rest).dropWhile Char.isDigit with _ | ⟨d, rest'⟩
          · rfl
          · have hlen := dropWhile_digit_cons (by simp at hcd; exact hcd.1) hdw
            simp at h1 h2
            dsimp only
            rw [ih g2 true (d :: rest') (by simp at hlen ⊢; omega)
              (by simp at hlen ⊢; omega)]
        · rw [if_neg hcd, if_neg hcd]
          simp at h1 h2
          rw [ih g2 (pyWordChar c) rest (by omega) (by omega)]

theorem removeNums_nil (prev : Bool) : removeNums prev [] = [] := rfl

theorem removeNums_cons (prev : Bool) (c : Char) (rest : List Char) :
    removeNums prev (c :: rest) =
      (if c.isDigit && !prev then
        match (c :: rest).dropWhile Char.isDigit with
        | [] => []
        | d :: rest' =>
          if pyWordChar d then
            (c :: rest).takeWhile Char.isDigit ++ removeNums true (d :: rest')
          else removeNums true (d :: rest')
      else c :: removeNums (pyWordChar c) rest) := by
  unfold removeNums
  rw [show (c :: rest).length = rest.length + 1 from by simp, removeNumsF]
  by_cases hcd : (c.isDigit && !prev) = true
  · rw [if_pos hcd, if_pos hcd]
    rcases hdw : (c :: rest).dropWhile Char.isDigit with _ | ⟨d, rest'⟩
    · rfl
    · have hlen := dropWhile_digit_cons (by simp at hcd; exact hcd.1) hdw
      simp at hlen
      dsimp only
      by_cases hw : pyWordChar d = true
      · rw [if_pos hw, if_pos hw]
        rw [removeNumsF_fuel rest.length (d :: rest').length true (d :: rest')
          (by simp; omega) (le_refl _)]
      · rw [if_neg hw, if_neg hw]
        exact removeNumsF_fuel rest.length (d :: rest').length true (d :: rest')
          (by simp; omega) (le_refl _)
  · rw [if_neg hcd, if_neg hcd]

/-- Fuel-indexed implementation of `str.split()`. -/
def splitWsF : Nat → List Char → List (List Char)
  | 0, _ => []
  | _, [] => []
  | fuel + 1, c :: rest =>
    if pySpace c then splitWsF fuel rest
    else
      (c :: rest.takeWhile fun x => !(pySpace x)) ::
        splitWsF fuel (rest.dropWhile fun x => !(pySpace x))

/-- Python `str.split()`: split on whitespace runs, dropping empty pieces.
(In the non-space branch, `takeWhile`/`dropWhile` of the whole list are
unfolded one step, which is valid because the head is not a space.) -/
def splitWs (cs : List Char) : List (List Char) := splitWsF cs.length cs

theorem splitWsF_fuel : ∀ (f1 f2 : Nat) (cs : List Char),
    cs.length ≤ f1 → cs.length ≤ f2 → splitWsF f1 cs = splitWsF f2 cs := by
  intro f1
  induction f1 with
  | zero =>
    intro f2 cs h1 _
    have : cs = [] := List.eq_nil_of_length_eq_zero (by omega)
    subst this
    cases f2 <;> rfl
  | succ g1 ih =>
    intro f2 cs h1 h2
    cases cs with
    | nil => cases f2 <;> rfl
    | cons c rest =>
      cases f2 with
      | zero => simp at h2
      | succ g2 =>
        rw [splitWsF, splitWsF]
        simp at h1 h2
        by_cases hs : pySpace c = true
        · rw [if_pos hs, if_pos hs, ih g2 rest (by omega) (by omega)]
        · rw [if_neg hs, if_neg hs]
          have hd := length_dropWhile_le (fun x => !(pySpace x)) rest
          rw [ih g2 (rest.dropWhile fun x => !(pySpace x)) (by omega) (by omega)]

theorem splitWs_nil : splitWs [] = [] := rfl

theorem splitWs_cons (c : Char) (rest : List Char) :
    splitWs (c :: rest) =
      (if pySpace c then splitWs rest
       else (c :: rest.takeWhile fun x => !(pySpace x)) ::
         splitWs (rest.dropWhile fun x => !(pySpace x))) := by
  unfold splitWs
  rw [show (c :: rest).length = rest.length + 1 from by simp, splitWsF]
  by_cases hs : pySpace c = true
  · rw [if_pos hs, if_pos hs]
  · rw [if_neg hs, if_neg hs]
    have hd := length_dropWhile_le (fun x => !(pySpace x)) rest
    rw [splitWsF_fuel rest.length (rest.dropWhile fun x => !(pySpace x)).length
      (rest.dropWhile fun x => !(pySpace x)) (by omega) (le_refl _)]

/-- The source's bilingual stop-word set. -/
def stop_words : List (List Char) :=
  ["the".data, "and".data, "for".data, "with".data, "that".data, "this".data,
   "from".data, "are".data, "was".data, "has".data,
   "una".data, "para".data, "con".data, "por".data, "los".data, "las".data,
   "del".data, "que".data, "como".data, "sus".data]

/-- `' '.join(words)`. -/
def joinSpace : List (List Char) → List Char
  | [] => []
  | [w] => w
  | w :: ws => w ++ ' ' :: joinSpace ws

/-- Fuel-indexed implementation of `re.sub(r'\s+', ' ', normalized)`. -/
def collapseWsF : Nat → List Char → List Char
  | 0, _ => []
  | _, [] => []
  | fuel + 1, c :: rest =>
    if pySpace c then ' ' :: collapseWsF fuel (rest.dropWhile pySpace)
    else c :: collapseWsF fuel rest

/-- `re.sub(r'\s+', ' ', normalized)`. -/
def collapseWs (cs : List Char) : List Char := collapseWsF cs.length cs

theorem collapseWsF_fuel : ∀ (f1 f2 : Nat) (cs : List Char),
    cs.length ≤ f1 → cs.length ≤ f2 → collapseWsF f1 cs = collapseWsF f2 cs := by
  intro f1
  induction f1 with
  | zero =>
    intro f2 cs h1 _
    have : cs = [] := List.eq_nil_of_length_eq_zero (by omega)
    subst this
    cases f2 <;> rfl
  | succ g1 ih =>
    intro f2 cs h1 h2
    cases cs with
    | nil => cases f2 <;> rfl
    | cons c rest =>
      cases f2 with
      | zero => simp at h2
      | succ g2 =>
        rw [collapseWsF, collapseWsF]
        simp at h1 h2
        by_cases hs : pySpace c = true
        · rw [if_pos hs]
          rw [if_pos hs]
          have hd := length_dropWhile_le pySpace rest
          rw [ih g2 (rest.dropWhile pySpace) (by omega) (by omega)]
        · rw [if_neg hs, if_neg hs, ih g2 rest (by omega) (by omega)]

theorem collapseWs_nil : collapseWs [] = [] := rfl

theorem collapseWs_cons (c : Char) (rest : List Char) :
    collapseWs (c :: rest) =
      (if pySpace c then ' ' :: collapseWs (rest.dropWhile pySpace)
       else c :: collapseWs rest) := by
  unfold collapseWs
  rw [show (c :: rest).length = rest.length + 1 from by simp, collapseWsF]
  by_cases hs : pySpace c = true
  · rw [if_pos hs, if_pos hs]
    have hd := length_dropWhile_le pySpace rest
    rw [collapseWsF_fuel rest.length (rest.dropWhile pySpace).length
      (rest.dropWhile pySpace) (by omega) (le_refl _)]
  · rw [if_neg hs, if_neg hs]

/-- Python `str.strip()`. -/
def stripWs (cs : List Char) : List Char :=
  ((cs.dropWhile pySpace).reverse.dropWhile pySpace).reverse

/-- `normalize_text` (src/deduplicator.py): lowercase, drop URLs, punctuation to
spaces, drop standalone numbers, drop tokens of length ≤ 2, drop stop words,
join and collapse whitespace. -/
def normalize_text (text : String) : String :=
  if text = "" then "" else
  let t1 := text.data.map pyToLower
  let t2 := removeURLs t1
  let t3 := punctToSpace t2
  let t4 := removeNums false t3
  let words0 := splitWs t4
  let words1 := words0.filter fun w => w.length > 2
  let words2 := words1.filter fun w => !(stop_words.contains w)
  String.mk (stripWs (collapseWs (joinSpace words2)))

/-! ## `difflib.SequenceMatcher` (CPython `Lib/difflib.py`)

Modelled for the way the source uses it: `SequenceMatcher(None, a, b).ratio()`
with `isjunk = None`, so `bjunk` is empty and the two junk-extension loops of
`find_longest_match` never run; `autojunk` is on, so when `len(b) >= 200` the
popular elements of `b` are deleted from `b2j`.  Floats become `ℚ`. -/

/-- Ascending list of positions of `c` in `b`. -/
def positionsOf (b : List Char) (c : Char) : List Nat :=
  (List.range b.length).filter fun j => b.getD j ' ' = c && j < b.length

def countChar (b : List Char) (c : Char) : Nat := (b.filter (· = c)).length

/-- The autojunk "popular" test of `SequenceMatcher.__chain_b`. -/
def isPopular (b : List Char) (c : Char) : Bool :=
  b.length ≥ 200 && countChar b c > b.length / 100 + 1

/-- `b2j` after popular-entry deletion. -/
def b2j (b : List Char) (c : Char) : List Nat :=
  if isPopular b c then [] else positionsOf b c

structure Best where
  besti : Nat
  bestj : Nat
  bestsize : Nat
deriving Repr, DecidableEq

/-- One step of the inner loop of `find_longest_match`:
`k = newj2len[j] = j2len.get(j-1, 0) + 1`, best updated on strictly larger `k`.
`j2lenPrev` is the previous row's map, `acc` carries the row's `newj2len` and
the running best. -/
def innerStep (j2lenPrev : Nat → Nat) (i : Nat) (acc : (Nat → Nat) × Best)
    (j : Nat) : (Nat → Nat) × Best :=
  let k := (if j = 0 then 0 else j2lenPrev (j - 1)) + 1
  (fun j' => if j' = j then k else acc.1 j',
   if k > acc.2.bestsize then ⟨i + 1 - k, j + 1 - k, k⟩ else acc.2)

/-- One row `i` of the loop: iterate the ascending position list `b2j[a[i]]`,
skipping `j < blo` and stopping at `j ≥ bhi` (equivalent, on an ascending list,
to filtering to `[blo, bhi)`); the row starts from an empty `newj2len`. -/
def rowStep (a b : List Char) (blo bhi : Nat) (st : (Nat → Nat) × Best)
    (i : Nat) : (Nat → Nat) × Best :=
  let js := (b2j b (a.getD i ' ')).filter fun j => blo ≤ j && j < bhi
  js.foldl (innerStep st.1 i) ((fun _ => 0), st.2)

/-- The dynamic-programming loop of `find_longest_match`. -/
def flmLoop (a b : List Char) (alo ahi blo bhi : Nat) : Best :=
  ((List.range' alo (ahi - alo)).foldl (rowStep a b blo bhi)
    ((fun _ => 0), ⟨alo, blo, 0⟩)).2

/-- Fuel-indexed first extension loop (fuel `bi` is exact: when it reaches `0`,
`alo < bi` fails anyway). -/
def extendLowerF (a b : List Char) (alo blo : Nat) : Nat → Nat → Nat → Nat → Best
  | 0, bi, bj, k => ⟨bi, bj, k⟩
  | fuel + 1, bi, bj, k =>
    if alo < bi ∧ blo < bj ∧ a.getD (bi - 1) ' ' = b.getD (bj - 1) ' ' then
      extendLowerF a b alo blo fuel (bi - 1) (bj - 1) (k + 1)
    else ⟨bi, bj, k⟩

/-- First extension loop: extend the block downward over equal characters
(`bjunk` is empty here, so `not isbjunk(...)` always holds). -/
def extendLower (a b : List Char) (alo blo : Nat) (bi bj k : Nat) : Best :=
  extendLowerF a b alo blo bi bi bj k

theorem extendLower_eq (a b : List Char) (alo blo bi bj k : Nat) :
    extendLower a b alo blo bi bj k =
      (if alo < bi ∧ blo < bj ∧ a.getD (bi - 1) ' ' = b.getD (bj - 1) ' ' then
        extendLower a b alo blo (bi - 1) (bj - 1) (k + 1)
      else ⟨bi, bj, k⟩) := by
  unfold extendLower
  cases bi with
  | zero =>
    rw [extendLowerF, if_neg]
    rintro ⟨h1, -, -⟩
    omega
  | succ n =>
    rw [extendLowerF]
    by_cases hc : alo < n + 1 ∧ blo < bj ∧ a.getD (n + 1 - 1) ' ' = b.getD (bj - 1) ' '
    · rw [if_pos hc, if_pos hc]
      simp only [Nat.add_sub_cancel]
    · rw [if_neg hc, if_neg hc]

/-- Fuel-indexed second extension loop (fuel `ahi - (bi + k)` is exact). -/
def extendUpperF (a b : List Char) (ahi bhi : Nat) : Nat → Nat → Nat → Nat → Best
  | 0, bi, bj, k => ⟨bi, bj, k⟩
  | fuel + 1, bi, bj, k =>
    if bi + k < ahi ∧ bj + k < bhi ∧ a.getD (bi + k) ' ' = b.getD (bj + k) ' ' then
      extendUpperF a b ahi bhi fuel bi bj (k + 1)
    else ⟨bi, bj, k⟩

/-- Second extension loop: extend the block upward over equal characters. -/
def extendUpper (a b : List Char) (ahi bhi : Nat) (bi bj k : Nat) : Best :=
  extendUpperF a b ahi bhi (ahi - (bi + k)) bi bj k

theorem extendUpper_eq (a b : List Char) (ahi bhi bi bj k : Nat) :
    extendUpper a b ahi bhi bi bj k =
      (if bi + k < ahi ∧ bj + k < bhi ∧ a.getD (bi + k) ' ' = b.getD (bj + k) ' ' then
        extendUpper a b ahi bhi bi bj (k + 1)
      else ⟨bi, bj, k⟩) := by
  unfold extendUpper
  rcases hE : ahi - (bi + k) with _ | fuel
  · rw [extendUpperF, if_neg]
    rintro ⟨h1, -, -⟩
    omega
  · rw [extendUpperF]
    by_cases hc : bi + k < ahi ∧ bj + k < bhi ∧ a.getD (bi + k) ' ' = b.getD (bj + k) ' '
    · rw [if_pos hc, if_pos hc]
      have : ahi - (bi + (k + 1)) = fuel := by omega
      rw [this]
    · rw [if_neg hc, if_neg hc]

/-- `SequenceMatcher.find_longest_match` (the two junk-extension loops are
no-ops because `isjunk` is `None` in this program). -/
def find_longest_match (a b : List Char) (alo ahi blo bhi : Nat) : Best :=
  let b0 := flmLoop a b alo ahi blo bhi
  let b1 := extendLower a b alo blo b0.besti b0.bestj b0.bestsize
  extendUpper a b ahi bhi b1.besti b1.bestj b1.bestsize

/-- Well-formedness of a `Best` result relative to the slice bounds. -/
def BestWF (alo ahi blo bhi : Nat) (m : Best) : Prop :=
  m = ⟨alo, blo, 0⟩ ∨
    (alo ≤ m.besti ∧ m.besti + m.bestsize ≤ ahi ∧
     blo ≤ m.bestj ∧ m.bestj + m.bestsize ≤ bhi ∧ 0 < m.bestsize)

theorem innerFold_wf {alo ahi blo bhi : Nat} (i : Nat) (hi : alo ≤ i ∧ i < ahi)
    (f : Nat → Nat) (hf : ∀ j, f j ≤ i - alo ∧ f j ≤ j + 1 - blo) :
    ∀ (js : List Nat) (g : Nat → Nat) (bb : Best),
      (∀ j ∈ js, blo ≤ j ∧ j < bhi) →
      (∀ j, g j ≤ i + 1 - alo ∧ g j ≤ j + 1 - blo) →
      BestWF alo ahi blo bhi bb →
      (∀ j, (js.foldl (innerStep f i) (g, bb)).1 j ≤ i + 1 - alo ∧
            (js.foldl (innerStep f i) (g, bb)).1 j ≤ j + 1 - blo) ∧
      BestWF alo ahi blo bhi (js.foldl (innerStep f i) (g, bb)).2 := by
  intro js
  induction js with
  | nil => intro g bb _ hg hbb; exact ⟨hg, hbb⟩
  | cons j js ih =>
    intro g bb hjs hg hbb
    have hj := hjs j (by simp)
    have hk1 : (if j = 0 then 0 else f (j - 1)) + 1 ≤ i + 1 - alo := by
      by_cases h0 : j = 0
      · simp [h0]; omega
      · simp [h0]; have := (hf (j - 1)).1; omega
    have hk2 : (if j = 0 then 0 else f (j - 1)) + 1 ≤ j + 1 - blo := by
      by_cases h0 : j = 0
      · simp [h0]; omega
      · simp [h0]; have := (hf (j - 1)).2; omega
    simp only [List.foldl_cons]
    apply ih
    · intro j' hj'; exact hjs j' (by simp [hj'])
    · intro j'
      simp only [innerStep]
      by_cases hij : j' = j
      · simp [hij]; exact ⟨hk1, hk2⟩
      · simp [hij]; exact hg j'
    · simp only [innerStep]
      by_cases hbig : (if j = 0 then 0 else f (j - 1)) + 1 > bb.bestsize
      · simp only [hbig, if_pos]
        right
        constructor
        · simp; omega
        refine ⟨by simp; omega, by simp; omega, by simp; omega, by simp⟩
      · simp only [hbig, if_neg, not_false_iff]
        simpa using hbb

theorem rowFold_wf {a b : List Char} {alo ahi blo bhi : Nat} :
    ∀ (n i0 : Nat) (st : (Nat → Nat) × Best), alo ≤ i0 → (i0 + n ≤ ahi ∨ n = 0) →
      (∀ j, st.1 j ≤ i0 - alo ∧ st.1 j ≤ j + 1 - blo) →
      BestWF alo ahi blo bhi st.2 →
      BestWF alo ahi blo bhi (((List.range' i0 n).foldl (rowStep a b blo bhi) st).2) := by
  intro n
  induction n with
  | zero => intro i0 st _ _ _ hbb; simpa using hbb
  | succ n ih =>
    intro i0 st hlo hhi hf hbb
    replace hhi : i0 + (n + 1) ≤ ahi := by omega
    rw [List.range'_succ, List.foldl_cons]
    have hstep := @innerFold_wf alo ahi blo bhi
      i0 ⟨hlo, by omega⟩ st.1 hf
      ((b2j b (a.getD i0 ' ')).filter fun j => blo ≤ j && j < bhi)
      (fun _ => 0) st.2
      (by intro j hj; simp at hj; exact ⟨hj.2.1, hj.2.2⟩)
      (by intro j; simp only []; constructor <;> omega)
      hbb
    exact ih (i0 + 1) _ (by omega) (by omega) (by simpa [rowStep] using hstep.1)
      (by simpa [rowStep] using hstep.2)

theorem flmLoop_wf (a b : List Char) (alo ahi blo bhi : Nat) :
    BestWF alo ahi blo bhi (flmLoop a b alo ahi blo bhi) := by
  unfold flmLoop
  apply rowFold_wf (ahi - alo) alo _ (le_refl alo)
  · rcases Nat.le_total alo ahi with h | h
    · exact Or.inl (by omega)
    · exact Or.inr (by omega)
  · intro j; simp only []; constructor <;> omega
  · exact Or.inl rfl

theorem extendLower_wf {a b : List Char} {alo ahi blo bhi : Nat} :
    ∀ bi bj k, BestWF alo ahi blo bhi ⟨bi, bj, k⟩ →
      BestWF alo ahi blo bhi (extendLower a b alo blo bi bj k) := by
  intro bi
  induction bi using Nat.strong_induction_on with
  | _ bi ih =>
    intro bj k hwf
    rw [extendLower_eq]
    split
    · rename_i h
      apply ih (bi - 1) (by omega)
      rcases hwf with h0 | hr
      · exfalso; cases h0; omega
      · right; simp at hr ⊢; omega
    · exact hwf

theorem extendUpper_wf {a b : List Char} {alo ahi blo bhi : Nat} :
    ∀ n bi bj k, n = ahi - (bi + k) → BestWF alo ahi blo bhi ⟨bi, bj, k⟩ →
      BestWF alo ahi blo bhi (extendUpper a b ahi bhi bi bj k) := by
  intro n
  induction n using Nat.strong_induction_on with
  | _ n ih =>
    intro bi bj k hn hwf
    rw [extendUpper_eq]
    split
    · rename_i h
      apply ih (ahi - (bi + (k + 1))) (by omega) bi bj (k + 1) rfl
      rcases hwf with h0 | hr
      · right; cases h0; simp at h ⊢; omega
      · right; simp at hr ⊢; omega
    · exact hwf

theorem flm_wf (a b : List Char) (alo ahi blo bhi : Nat) :
    BestWF alo ahi blo bhi (find_longest_match a b alo ahi blo bhi) := by
  unfold find_longest_match
  have h0 := flmLoop_wf a b alo ahi blo bhi
  have h1 := @extendLower_wf a b alo ahi blo bhi
    (flmLoop a b alo ahi blo bhi).besti (flmLoop a b alo ahi blo bhi).bestj
    (flmLoop a b alo ahi blo bhi).bestsize h0
  exact extendUpper_wf _ _ _ _ rfl h1

/-- Fuel-indexed sum of the sizes of `get_matching_blocks` (the fuel bounds the
total slice width and is never exhausted). -/
def matchesSumF (a b : List Char) : Nat → Nat → Nat → Nat → Nat → Nat
  | 0, _, _, _, _ => 0
  | fuel + 1, alo, ahi, blo, bhi =>
    match find_longest_match a b alo ahi blo bhi with
    | ⟨bi, bj, k⟩ =>
      if k = 0 then 0
      else
        k + (if alo < bi ∧ blo < bj then matchesSumF a b fuel alo bi blo bj else 0)
          + (if bi + k < ahi ∧ bj + k < bhi then
               matchesSumF a b fuel (bi + k) ahi (bj + k) bhi else 0)

/-- Sum of the sizes of `get_matching_blocks` (the queue recursion of
CPython's `get_matching_blocks`; only the size total is needed for `ratio`). -/
def matchesSum (a b : List Char) (alo ahi blo bhi : Nat) : Nat :=
  matchesSumF a b ((ahi - alo) + (bhi - blo) + 1) alo ahi blo bhi

theorem matchesSumF_fuel (a b : List Char) : ∀ (f1 f2 alo ahi blo bhi : Nat),
    (ahi - alo) + (bhi - blo) < f1 → (ahi - alo) + (bhi - blo) < f2 →
    matchesSumF a b f1 alo ahi blo bhi = matchesSumF a b f2 alo ahi blo bhi := by
  intro f1
  induction f1 with
  | zero => intro f2 alo ahi blo bhi h1 _; omega
  | succ g1 ih =>
    intro f2 alo ahi blo bhi h1 h2
    cases f2 with
    | zero => omega
    | succ g2 =>
      rw [matchesSumF, matchesSumF]
      have hwf := flm_wf a b alo ahi blo bhi
      rcases hm : find_longest_match a b alo ahi blo bhi with ⟨bi, bj, k⟩
      rw [hm] at hwf
      dsimp only
      by_cases hk : k = 0
      · rw [if_pos hk, if_pos hk]
      · rw [if_neg hk, if_neg hk]
        rcases hwf with h0 | hr
        · exfalso; cases h0; exact hk rfl
        · simp only [Best.besti, Best.bestj, Best.bestsize] at hr
          have hA : (if alo < bi ∧ blo < bj then matchesSumF a b g1 alo bi blo bj else 0)
              = (if alo < bi ∧ blo < bj then matchesSumF a b g2 alo bi blo bj else 0) := by
            by_cases hc1 : alo < bi ∧ blo < bj
            · rw [if_pos hc1, if_pos hc1, ih g2 alo bi blo bj (by omega) (by omega)]
            · rw [if_neg hc1, if_neg hc1]
          have hB : (if bi + k < ahi ∧ bj + k < bhi then
                matchesSumF a b g1 (bi + k) ahi (bj + k) bhi else 0)
              = (if bi + k < ahi ∧ bj + k < bhi then
                matchesSumF a b g2 (bi + k) ahi (bj + k) bhi else 0) := by
            by_cases hc2 : bi + k < ahi ∧ bj + k < bhi
            · rw [if_pos hc2, if_pos hc2,
                ih g2 (bi + k) ahi (bj + k) bhi (by omega) (by omega)]
            · rw [if_neg hc2, if_neg hc2]
          rw [hA, hB]

theorem matchesSum_eq (a b : List Char) (alo ahi blo bhi : Nat) :
    matchesSum a b alo ahi blo bhi =
      (match find_longest_match a b alo ahi blo bhi with
      | ⟨bi, bj, k⟩ =>
        if k = 0 then 0
        else
          k + (if alo < bi ∧ blo < bj then matchesSum a b alo bi blo bj else 0)
            + (if bi + k < ahi ∧ bj + k < bhi then
                 matchesSum a b (bi + k) ahi (bj + k) bhi else 0)) := by
  show matchesSumF a b ((ahi - alo) + (bhi - blo) + 1) alo ahi blo bhi = _
  rw [matchesSumF]
  have hwf := flm_wf a b alo ahi blo bhi
  rcases hm : find_longest_match a b alo ahi blo bhi with ⟨bi, bj, k⟩
  rw [hm] at hwf
  dsimp only
  by_cases hk : k = 0
  · rw [if_pos hk, if_pos hk]
  · rw [if_neg hk, if_neg hk]
    rcases hwf with h0 | hr
    · exfalso; cases h0; exact hk rfl
    · simp only [Best.besti, Best.bestj, Best.bestsize] at hr
      have hA : (if alo < bi ∧ blo < bj then
            matchesSumF a b ((ahi - alo) + (bhi - blo)) alo bi blo bj else 0)
          = (if alo < bi ∧ blo < bj then matchesSum a b alo bi blo bj else 0) := by
        by_cases hc1 : alo < bi ∧ blo < bj
        · rw [if_pos hc1, if_pos hc1]
          exact matchesSumF_fuel a b _ _ alo bi blo bj (by omega) (by omega)
        · rw [if_neg hc1, if_neg hc1]
      have hB : (if bi + k < ahi ∧ bj + k < bhi then
            matchesSumF a b ((ahi - alo) + (bhi - blo)) (bi + k) ahi (bj + k) bhi else 0)
          = (if bi + k < ahi ∧ bj + k < bhi then
            matchesSum a b (bi + k) ahi (bj + k) bhi else 0) := by
        by_cases hc2 : bi + k < ahi ∧ bj + k < bhi
        · rw [if_pos hc2, if_pos hc2]
          exact matchesSumF_fuel a b _ _ (bi + k) ahi (bj + k) bhi (by omega) (by omega)
        · rw [if_neg hc2, if_neg hc2]
      rw [hA, hB]

/-! ### Self-comparison: `find_longest_match a a lo hi lo hi` returns a
diagonal block, hence `ratio (s, s) = 1`.

`selfCond a lo hi i j` states that position `j` is iterated in row `i` of the
DP loop when both sequences are `a` and both slices are `[lo, hi)`; `selfRow`
reproduces the `j2len` map after each row, and `selfD` is its diagonal value.
Every DP cell is bounded by the diagonal cell of its row and of its column, so
the running best (updated only on strictly larger sizes) only ever records
diagonal blocks. -/

def selfCond (a : List Char) (lo hi i j : Nat) : Prop :=
  lo ≤ j ∧ j < hi ∧ j < a.length ∧ a.getD j ' ' = a.getD i ' ' ∧
    isPopular a (a.getD i ' ') = false

instance selfCondDec (a : List Char) (lo hi i j : Nat) : Decidable (selfCond a lo hi i j) :=
  inferInstanceAs (Decidable (_ ∧ _ ∧ _ ∧ _ ∧ _))

/-- The `j2len` map of the self-comparison DP after `t` rows. -/
def selfRow (a : List Char) (lo hi : Nat) : Nat → Nat → Nat
  | 0, _ => 0
  | t + 1, j =>
    if selfCond a lo hi (lo + t) j then
      (if j = 0 then 0 else selfRow a lo hi t (j - 1)) + 1
    else 0

/-- Diagonal value of row `t` of the self-comparison DP. -/
def selfD (a : List Char) (lo hi t : Nat) : Nat := selfRow a lo hi (t + 1) (lo + t)

theorem selfJs_mem (a : List Char) (lo hi i j : Nat) :
    (j ∈ (b2j a (a.getD i ' ')).filter fun j => decide (lo ≤ j) && decide (j < hi)) ↔
      selfCond a lo hi i j := by
  unfold b2j positionsOf selfCond
  by_cases hp : isPopular a (a.getD i ' ') = true
  · rw [if_pos hp]
    simp only [List.filter_nil, List.not_mem_nil, false_iff]
    rintro ⟨-, -, -, -, h5⟩
    rw [hp] at h5
    simp at h5
  · rw [if_neg hp]
    rw [Bool.not_eq_true] at hp
    simp only [hp, List.mem_filter, List.mem_range, Bool.and_eq_true, decide_eq_true_eq,
      and_true]
    tauto

theorem selfCond_diag_col {a : List Char} {lo hi i j : Nat}
    (h : selfCond a lo hi i j) : selfCond a lo hi j j := by
  obtain ⟨h1, h2, h3, h4, h5⟩ := h
  exact ⟨h1, h2, h3, rfl, by rw [h4]; exact h5⟩

theorem selfRow_lt_lo (a : List Char) (lo hi : Nat) :
    ∀ (t j : Nat), j < lo → selfRow a lo hi t j = 0 := by
  intro t j hj
  cases t with
  | zero => rfl
  | succ s =>
    rw [selfRow, if_neg]
    intro hc
    exact absurd hc.1 (by omega)

/-- Each DP cell is bounded by the diagonal cell of its column. -/
theorem selfRow_le_colDiag (a : List Char) (lo hi : Nat) :
    ∀ (t j : Nat), selfRow a lo hi (t + 1) j ≤ selfRow a lo hi (j - lo + 1) j := by
  intro t
  induction t with
  | zero =>
    intro j
    rw [selfRow]
    by_cases hc : selfCond a lo hi (lo + 0) j
    · rw [if_pos hc]
      have hcc := selfCond_diag_col hc
      have hj : lo + (j - lo) = j := by
        have := hc.1; omega
      have hR : selfRow a lo hi (j - lo + 1) j
          = (if j = 0 then 0 else selfRow a lo hi (j - lo) (j - 1)) + 1 := by
        rw [selfRow, hj, if_pos hcc]
      rw [hR]
      by_cases h0 : j = 0
      · rw [if_pos h0, if_pos h0]
      · rw [if_neg h0, if_neg h0]
        have hz : selfRow a lo hi 0 (j - 1) = 0 := rfl
        omega
    · rw [if_neg hc]
      exact Nat.zero_le _
  | succ s ih =>
    intro j
    rw [selfRow]
    by_cases hc : selfCond a lo hi (lo + (s + 1)) j
    · rw [if_pos hc]
      have hcc := selfCond_diag_col hc
      have hj : lo + (j - lo) = j := by
        have := hc.1; omega
      have hR : selfRow a lo hi (j - lo + 1) j
          = (if j = 0 then 0 else selfRow a lo hi (j - lo) (j - 1)) + 1 := by
        rw [selfRow, hj, if_pos hcc]
      rw [hR]
      by_cases h0 : j = 0
      · rw [if_pos h0, if_pos h0]
      · rw [if_neg h0, if_neg h0]
        by_cases hjlo : j - 1 < lo
        · have hz := selfRow_lt_lo a lo hi (s + 1) (j - 1) hjlo
          omega
        · have hIH := ih (j - 1)
          have he : (j - 1) - lo + 1 = j - lo := by omega
          rw [he] at hIH
          omega
    · rw [if_neg hc]
      exact Nat.zero_le _

/-- Each DP cell is bounded by the diagonal cell of its row. -/
theorem selfRow_le_rowDiag (a : List Char) (lo hi : Nat) (hlen : hi ≤ a.length) :
    ∀ (t j : Nat), lo + t < hi → selfRow a lo hi (t + 1) j ≤ selfD a lo hi t := by
  intro t
  induction t with
  | zero =>
    intro j hrow
    rw [selfRow]
    by_cases hc : selfCond a lo hi (lo + 0) j
    · rw [if_pos hc]
      have hcc : selfCond a lo hi (lo + 0) (lo + 0) :=
        ⟨by omega, by omega, by omega, rfl, hc.2.2.2.2⟩
      have hD : 1 ≤ selfD a lo hi 0 := by
        unfold selfD
        rw [selfRow, if_pos hcc]
        omega
      have hz : selfRow a lo hi 0 (j - 1) = 0 := rfl
      by_cases h0 : j = 0
      · rw [if_pos h0]; omega
      · rw [if_neg h0]; omega
    · rw [if_neg hc]
      exact Nat.zero_le _
  | succ s ih =>
    intro j hrow
    rw [selfRow]
    by_cases hc : selfCond a lo hi (lo + (s + 1)) j
    · rw [if_pos hc]
      have hcc : selfCond a lo hi (lo + (s + 1)) (lo + (s + 1)) :=
        ⟨by omega, hrow, by omega, rfl, hc.2.2.2.2⟩
      have hD : selfD a lo hi (s + 1) = selfRow a lo hi (s + 1) (lo + s) + 1 := by
        unfold selfD
        rw [selfRow, if_pos hcc]
        have h1 : lo + (s + 1) - 1 = lo + s := by omega
        rw [h1, if_neg (by omega)]
      by_cases h0 : j = 0
      · rw [if_pos h0]; omega
      · rw [if_neg h0]
        have hIH := ih (j - 1) (by omega)
        have hDs : selfD a lo hi s = selfRow a lo hi (s + 1) (lo + s) := rfl
        omega
    · rw [if_neg hc]
      exact Nat.zero_le _

/-- Inner loop of a self-comparison row: the best stays diagonal and dominates
every completed diagonal. -/
theorem selfInner (a : List Char) (lo hi : Nat) (t : Nat) (hlen : hi ≤ a.length)
    (hrow : lo + t < hi) (m : Nat → Nat) (hm : ∀ j, m j = selfRow a lo hi t j) :
    ∀ (js : List Nat) (g : Nat → Nat) (B : Best),
      (∀ j ∈ js, selfCond a lo hi (lo + t) j) →
      js.Pairwise (· < ·) →
      (∀ j, j ∉ js → g j = selfRow a lo hi (t + 1) j) →
      B.besti = B.bestj →
      (∀ s, s < t → selfD a lo hi s ≤ B.bestsize) →
      ((lo + t) ∉ js → selfD a lo hi t ≤ B.bestsize) →
      (∀ j, (js.foldl (innerStep m (lo + t)) (g, B)).1 j = selfRow a lo hi (t + 1) j) ∧
      ((js.foldl (innerStep m (lo + t)) (g, B)).2.besti =
        (js.foldl (innerStep m (lo + t)) (g, B)).2.bestj) ∧
      (∀ s, s < t + 1 →
        selfD a lo hi s ≤ (js.foldl (innerStep m (lo + t)) (g, B)).2.bestsize) := by
  intro js
  induction js with
  | nil =>
    intro g B hjs _ hg hdiag hmax hcond
    refine ⟨fun j => hg j (List.not_mem_nil j), hdiag, ?_⟩
    intro s hs
    rcases Nat.lt_succ_iff_lt_or_eq.mp hs with h | h
    · exact hmax s h
    · subst h
      exact hcond (List.not_mem_nil _)
  | cons j rest ih =>
    intro g B hjs hsort hg hdiag hmax hcond
    have hcj : selfCond a lo hi (lo + t) j := hjs j (by simp)
    have hk : (if j = 0 then 0 else m (j - 1)) + 1 = selfRow a lo hi (t + 1) j := by
      have h1 : selfRow a lo hi (t + 1) j
          = (if j = 0 then 0 else selfRow a lo hi t (j - 1)) + 1 := by
        rw [selfRow, if_pos hcj]
      rw [h1]
      by_cases h0 : j = 0
      · rw [if_pos h0, if_pos h0]
      · rw [if_neg h0, if_neg h0, hm]
    obtain ⟨hlt, hrest⟩ := List.pairwise_cons.mp hsort
    rw [List.foldl_cons,
      show innerStep m (lo + t) (g, B) j
        = (fun x => if x = j then (if j = 0 then 0 else m (j - 1)) + 1 else g x,
           if (if j = 0 then 0 else m (j - 1)) + 1 > B.bestsize then
             ⟨lo + t + 1 - ((if j = 0 then 0 else m (j - 1)) + 1),
              j + 1 - ((if j = 0 then 0 else m (j - 1)) + 1),
              (if j = 0 then 0 else m (j - 1)) + 1⟩
           else B) from rfl]
    have hmapOK : ∀ x, x ∉ rest →
        (fun x => if x = j then (if j = 0 then 0 else m (j - 1)) + 1 else g x) x
          = selfRow a lo hi (t + 1) x := by
      intro x hx
      by_cases hxj : x = j
      · show (if x = j then (if j = 0 then 0 else m (j - 1)) + 1 else g x) = _
        rw [if_pos hxj, hxj]
        exact hk
      · show (if x = j then (if j = 0 then 0 else m (j - 1)) + 1 else g x) = _
        rw [if_neg hxj]
        exact hg x (by simp [hxj, hx])
    by_cases hdg : j = lo + t
    · -- the diagonal cell of this row
      have hkD : (if j = 0 then 0 else m (j - 1)) + 1 = selfD a lo hi t := by
        rw [hk, hdg]; rfl
      by_cases hbig : (if j = 0 then 0 else m (j - 1)) + 1 > B.bestsize
      · rw [if_pos hbig]
        apply ih
        · intro x hx; exact hjs x (by simp [hx])
        · exact hrest
        · exact hmapOK
        · show lo + t + 1 - _ = j + 1 - _
          rw [hdg]
        · intro s hs
          show selfD a lo hi s ≤ (if j = 0 then 0 else m (j - 1)) + 1
          have := hmax s hs
          omega
        · intro _
          show selfD a lo hi t ≤ (if j = 0 then 0 else m (j - 1)) + 1
          omega
      · rw [if_neg hbig]
        apply ih
        · intro x hx; exact hjs x (by simp [hx])
        · exact hrest
        · exact hmapOK
        · exact hdiag
        · exact hmax
        · intro _
          omega
    · -- an off-diagonal cell: its value is dominated, so the best is unchanged
      have hknew : (if j = 0 then 0 else m (j - 1)) + 1 ≤ B.bestsize := by
        rcases Nat.lt_or_ge j (lo + t) with hjl | hjg
        · have hA := selfRow_le_colDiag a lo hi t j
          have hjlo : lo ≤ j := hcj.1
          have he : selfD a lo hi (j - lo) = selfRow a lo hi (j - lo + 1) j := by
            unfold selfD
            have h2 : lo + (j - lo) = j := by omega
            rw [h2]
          have hmx := hmax (j - lo) (by omega)
          omega
        · have hji : lo + t < j := by omega
          have hnin : (lo + t) ∉ (j :: rest) := by
            intro hmem
            rcases List.mem_cons.mp hmem with h | h
            · omega
            · have := hlt _ h; omega
          have hB := selfRow_le_rowDiag a lo hi hlen t j hrow
          have := hcond hnin
          omega
      have hbig : ¬((if j = 0 then 0 else m (j - 1)) + 1 > B.bestsize) := by omega
      rw [if_neg hbig]
      apply ih
      · intro x hx; exact hjs x (by simp [hx])
      · exact hrest
      · exact hmapOK
      · exact hdiag
      · exact hmax
      · intro hni
        apply hcond
        intro hmem
        rcases List.mem_cons.mp hmem with h | h
        · exact hdg h.symm
        · exact hni h

/-- Row loop of the self-comparison: the final best block is diagonal. -/
theorem selfRows (a : List Char) (lo hi : Nat) (hlen : hi ≤ a.length) :
    ∀ (n t : Nat) (st : (Nat → Nat) × Best), (lo + t + n ≤ hi ∨ n = 0) →
      (∀ j, st.1 j = selfRow a lo hi t j) →
      st.2.besti = st.2.bestj →
      (∀ s, s < t → selfD a lo hi s ≤ st.2.bestsize) →
      ((List.range' (lo + t) n).foldl (rowStep a a lo hi) st).2.besti =
        ((List.range' (lo + t) n).foldl (rowStep a a lo hi) st).2.bestj := by
  intro n
  induction n with
  | zero => intro t st _ _ hdiag _; simpa using hdiag
  | succ n ih =>
    intro t st hn hm hdiag hmax
    replace hn : lo + t + (n + 1) ≤ hi := by omega
    have hrow : lo + t < hi := by omega
    rw [List.range'_succ, List.foldl_cons]
    have hjs : ∀ j ∈ ((b2j a (a.getD (lo + t) ' ')).filter
        fun j => decide (lo ≤ j) && decide (j < hi)), selfCond a lo hi (lo + t) j :=
      fun j hj => (selfJs_mem a lo hi (lo + t) j).mp hj
    have hsort : ((b2j a (a.getD (lo + t) ' ')).filter
        fun j => decide (lo ≤ j) && decide (j < hi)).Pairwise (· < ·) := by
      apply List.Pairwise.filter
      unfold b2j
      by_cases hp : isPopular a (a.getD (lo + t) ' ') = true
      · rw [if_pos hp]; exact List.Pairwise.nil
      · rw [if_neg hp]
        unfold positionsOf
        exact (List.pairwise_lt_range a.length).filter _
    have hg0 : ∀ j, j ∉ ((b2j a (a.getD (lo + t) ' ')).filter
        fun j => decide (lo ≤ j) && decide (j < hi)) →
        (fun _ : Nat => 0) j = selfRow a lo hi (t + 1) j := by
      intro j hj
      have hnc : ¬selfCond a lo hi (lo + t) j :=
        fun hc => hj ((selfJs_mem a lo hi (lo + t) j).mpr hc)
      show (0 : Nat) = selfRow a lo hi (t + 1) j
      rw [selfRow, if_neg hnc]
    have hcond0 : (lo + t) ∉ ((b2j a (a.getD (lo + t) ' ')).filter
        fun j => decide (lo ≤ j) && decide (j < hi)) →
        selfD a lo hi t ≤ st.2.bestsize := by
      intro hni
      have hnc : ¬selfCond a lo hi (lo + t) (lo + t) :=
        fun hc => hni ((selfJs_mem a lo hi (lo + t) (lo + t)).mpr hc)
      have hz : selfD a lo hi t = 0 := by
        unfold selfD
        rw [selfRow, if_neg hnc]
      omega
    have hstep := selfInner a lo hi t hlen hrow st.1 hm
      ((b2j a (a.getD (lo + t) ' ')).filter fun j => decide (lo ≤ j) && decide (j < hi))
      (fun _ => 0) st.2 hjs hsort hg0 hdiag hmax hcond0
    have he : lo + t + 1 = lo + (t + 1) := by omega
    rw [he]
    exact ih (t + 1) _ (by omega) (by simpa [rowStep] using hstep.1)
      (by simpa [rowStep] using hstep.2.1) (by simpa [rowStep] using hstep.2.2)

theorem flmLoop_self_diag (a : List Char) (lo hi : Nat) (hlen : hi ≤ a.length) :
    (flmLoop a a lo hi lo hi).besti = (flmLoop a a lo hi lo hi).bestj := by
  unfold flmLoop
  have h := selfRows a lo hi hlen (hi - lo) 0 ((fun _ => 0), ⟨lo, lo, 0⟩)
    (by omega) (fun j => rfl) rfl (fun s hs => absurd hs (Nat.not_lt_zero s))
  simpa using h

theorem extendLower_diag (a : List Char) (lo : Nat) :
    ∀ bi bj k, bi = bj →
      (extendLower a a lo lo bi bj k).besti = (extendLower a a lo lo bi bj k).bestj := by
  intro bi
  induction bi using Nat.strong_induction_on with
  | _ bi ih =>
    intro bj k he
    rw [extendLower_eq]
    by_cases h : lo < bi ∧ lo < bj ∧ a.getD (bi - 1) ' ' = a.getD (bj - 1) ' '
    · rw [if_pos h]
      exact ih (bi - 1) (by omega) (bj - 1) (k + 1) (by omega)
    · rw [if_neg h]
      exact he

theorem extendUpper_diag (a : List Char) (hi : Nat) :
    ∀ n bi bj k, n = hi - (bi + k) → bi = bj →
      (extendUpper a a hi hi bi bj k).besti = (extendUpper a a hi hi bi bj k).bestj := by
  intro n
  induction n using Nat.strong_induction_on with
  | _ n ih =>
    intro bi bj k hn he
    rw [extendUpper_eq]
    by_cases h : bi + k < hi ∧ bj + k < hi ∧ a.getD (bi + k) ' ' = a.getD (bj + k) ' '
    · rw [if_pos h]
      exact ih (hi - (bi + (k + 1))) (by omega) bi bj (k + 1) rfl he
    · rw [if_neg h]
      exact he

theorem extendLower_size (a b : List Char) (alo blo : Nat) :
    ∀ bi bj k, k ≤ (extendLower a b alo blo bi bj k).bestsize := by
  intro bi
  induction bi using Nat.strong_induction_on with
  | _ bi ih =>
    intro bj k
    rw [extendLower_eq]
    by_cases h : alo < bi ∧ blo < bj ∧ a.getD (bi - 1) ' ' = b.getD (bj - 1) ' '
    · rw [if_pos h]
      have := ih (bi - 1) (by omega) (bj - 1) (k + 1)
      omega
    · rw [if_neg h]

theorem extendUpper_size (a b : List Char) (ahi bhi : Nat) :
    ∀ n bi bj k, n = ahi - (bi + k) →
      k ≤ (extendUpper a b ahi bhi bi bj k).bestsize := by
  intro n
  induction n using Nat.strong_induction_on with
  | _ n ih =>
    intro bi bj k hn
    rw [extendUpper_eq]
    by_cases h : bi + k < ahi ∧ bj + k < bhi ∧ a.getD (bi + k) ' ' = b.getD (bj + k) ' '
    · rw [if_pos h]
      have := ih (ahi - (bi + (k + 1))) (by omega) bi bj (k + 1) rfl
      omega
    · rw [if_neg h]

theorem find_longest_match_def (a b : List Char) (alo ahi blo bhi : Nat) :
    find_longest_match a b alo ahi blo bhi =
      extendUpper a b ahi bhi
        (extendLower a b alo blo (flmLoop a b alo ahi blo bhi).besti
          (flmLoop a b alo ahi blo bhi).bestj (flmLoop a b alo ahi blo bhi).bestsize).besti
        (extendLower a b alo blo (flmLoop a b alo ahi blo bhi).besti
          (flmLoop a b alo ahi blo bhi).bestj (flmLoop a b alo ahi blo bhi).bestsize).bestj
        (extendLower a b alo blo (flmLoop a b alo ahi blo bhi).besti
          (flmLoop a b alo ahi blo bhi).bestj (flmLoop a b alo ahi blo bhi).bestsize).bestsize :=
  rfl

/-- For a self-comparison over a non-empty slice, `find_longest_match` returns
a diagonal in-bounds block of size at least one. -/
theorem flm_self (a : List Char) (lo hi : Nat) (hlen : hi ≤ a.length) (hlt : lo < hi) :
    lo ≤ (find_longest_match a a lo hi lo hi).besti ∧
    (find_longest_match a a lo hi lo hi).besti = (find_longest_match a a lo hi lo hi).bestj ∧
    (find_longest_match a a lo hi lo hi).besti +
      (find_longest_match a a lo hi lo hi).bestsize ≤ hi ∧
    1 ≤ (find_longest_match a a lo hi lo hi).bestsize := by
  have hdiag : (find_longest_match a a lo hi lo hi).besti
      = (find_longest_match a a lo hi lo hi).bestj := by
    rw [find_longest_match_def]
    exact extendUpper_diag a hi _ _ _ _ rfl
      (extendLower_diag a lo _ _ _ (flmLoop_self_diag a lo hi hlen))
  have hk1 : 1 ≤ (find_longest_match a a lo hi lo hi).bestsize := by
    rw [find_longest_match_def]
    rcases Nat.eq_zero_or_pos (extendLower a a lo lo (flmLoop a a lo hi lo hi).besti
        (flmLoop a a lo hi lo hi).bestj (flmLoop a a lo hi lo hi).bestsize).bestsize with
      h0 | hpos
    · have hL := extendLower_size a a lo lo (flmLoop a a lo hi lo hi).besti
        (flmLoop a a lo hi lo hi).bestj (flmLoop a a lo hi lo hi).bestsize
      have h00 : (flmLoop a a lo hi lo hi).bestsize = 0 := by omega
      have hwf0 := flmLoop_wf a a lo hi lo hi
      have hLL : flmLoop a a lo hi lo hi = ⟨lo, lo, 0⟩ := by
        rcases hwf0 with h | h
        · exact h
        · exfalso
          have := h.2.2.2.2
          omega
      rw [hLL]
      have hb1 : extendLower a a lo lo lo lo 0 = (⟨lo, lo, 0⟩ : Best) := by
        rw [extendLower_eq, if_neg]
        rintro ⟨h, -⟩
        omega
      show 1 ≤ (extendUpper a a hi hi (extendLower a a lo lo lo lo 0).besti
        (extendLower a a lo lo lo lo 0).bestj (extendLower a a lo lo lo lo 0).bestsize).bestsize
      rw [hb1]
      show 1 ≤ (extendUpper a a hi hi lo lo 0).bestsize
      rw [extendUpper_eq, if_pos ⟨by omega, by omega, rfl⟩]
      exact extendUpper_size a a hi hi (hi - (lo + 1)) lo lo 1 (by omega)
    · exact le_trans hpos (extendUpper_size a a hi hi _ _ _ _ rfl)
  have hwf := flm_wf a a lo hi lo hi
  rcases hwf with h0 | hb
  · exfalso
    rw [h0] at hk1
    simp at hk1
  · exact ⟨hb.1, hdiag, hb.2.1, hk1⟩

/-- Total matched size of a self-comparison: the whole slice. -/
theorem matchesSum_self (a : List Char) :
    ∀ (N lo hi : Nat), hi - lo ≤ N → hi ≤ a.length →
      matchesSum a a lo hi lo hi = hi - lo := by
  intro N
  induction N with
  | zero =>
    intro lo hi hN hlen
    rw [matchesSum_eq]
    have hwf := flm_wf a a lo hi lo hi
    rcases hm : find_longest_match a a lo hi lo hi with ⟨bi, bj, k⟩
    rw [hm] at hwf
    dsimp only
    rcases hwf with h | h
    · cases h
      rw [if_pos rfl]
      omega
    · exfalso
      simp only [Best.besti, Best.bestj, Best.bestsize] at h
      omega
  | succ N ih =>
    intro lo hi hN hlen
    by_cases hlt : lo < hi
    · obtain ⟨hblo, hbd, hbhi, hbk⟩ := flm_self a lo hi hlen hlt
      rw [matchesSum_eq]
      rcases hm : find_longest_match a a lo hi lo hi with ⟨bi, bj, k⟩
      rw [hm] at hblo hbd hbhi hbk
      simp only [Best.besti, Best.bestj, Best.bestsize] at hblo hbd hbhi hbk
      dsimp only
      rw [if_neg (by omega)]
      subst hbd
      have hA : (if lo < bi ∧ lo < bi then matchesSum a a lo bi lo bi else 0) = bi - lo := by
        by_cases hc : lo < bi ∧ lo < bi
        · rw [if_pos hc]
          exact ih lo bi (by omega) (by omega)
        · rw [if_neg hc]
          omega
      have hB : (if bi + k < hi ∧ bi + k < hi then
          matchesSum a a (bi + k) hi (bi + k) hi else 0) = hi - (bi + k) := by
        by_cases hc : bi + k < hi ∧ bi + k < hi
        · rw [if_pos hc]
          exact ih (bi + k) hi (by omega) hlen
        · rw [if_neg hc]
          omega
      rw [hA, hB]
      omega
    · rw [matchesSum_eq]
      have hwf := flm_wf a a lo hi lo hi
      rcases hm : find_longest_match a a lo hi lo hi with ⟨bi, bj, k⟩
      rw [hm] at hwf
      dsimp only
      rcases hwf with h | h
      · cases h
        rw [if_pos rfl]
        omega
      · exfalso
        simp only [Best.besti, Best.bestj, Best.bestsize] at h
        omega

/-- `SequenceMatcher.ratio()` over `ℚ` (floats abstracted to rationals;
`_calculate_ratio` returns `1.0` when both sequences are empty). -/
def sm_ratio (a b : List Char) : ℚ :=
  if a.length + b.length = 0 then 1
  else 2 * (matchesSum a b 0 a.length 0 b.length : ℚ) / (a.length + b.length)

/-- `ratio` of any sequence against itself is `1`. -/
theorem sm_ratio_self (a : List Char) : sm_ratio a a = 1 := by
  unfold sm_ratio
  by_cases h0 : a.length + a.length = 0
  · rw [if_pos h0]
  · rw [if_neg h0]
    rw [matchesSum_self a a.length 0 a.length (by omega) (le_refl _)]
    have hl : 0 < a.length := by omega
    have hQ : ((a.length : ℚ)) + (a.length : ℚ) ≠ 0 := by
      have hpos : (0 : ℚ) < (a.length : ℚ) := by exact_mod_cast hl
      intro hz
      nlinarith
    rw [Nat.sub_zero, div_eq_one_iff_eq hQ]
    ring

/-- `calculate_text_similarity` (src/deduplicator.py lines 132-153). -/
def calculate_text_similarity (text1 text2 : String) : ℚ :=
  if text1 = "" || text2 = "" then 0
  else sm_ratio (normalize_text text1).data (normalize_text text2).data

/-! ### Idempotence machinery for `normalize_text`

A normalized string is `' '.join ws` for tokens `ws` made of lowercase-fixed
word characters, each longer than two characters, not a stop word and not all
digits; running the pipeline over such a string changes nothing. -/

theorem toNat_ofNat_valid (n : Nat) (h : n < 55296) : (Char.ofNat n).toNat = n := by
  unfold Char.ofNat
  rw [dif_pos (Or.inl h)]
  simp [Char.ofNatAux, Char.toNat, UInt32.toNat, UInt32.ofNat']

theorem toLower_evalEq (c : Char) :
    c.toLower = if 65 ≤ c.toNat ∧ c.toNat ≤ 90 then Char.ofNat (c.toNat + 32) else c := rfl

theorem pyToLower_low {d : Char} (hd1 : 97 ≤ d.toNat) (hd2 : d.toNat ≤ 122) :
    pyToLower d = d := by
  unfold pyToLower
  rw [if_neg (fun he => by rw [he] at hd2; exact absurd hd2 (by decide)),
    if_neg (fun he => by rw [he] at hd2; exact absurd hd2 (by decide)),
    if_neg (fun he => by rw [he] at hd2; exact absurd hd2 (by decide)),
    if_neg (fun he => by rw [he] at hd2; exact absurd hd2 (by decide)),
    if_neg (fun he => by rw [he] at hd2; exact absurd hd2 (by decide)),
    if_neg (fun he => by rw [he] at hd2; exact absurd hd2 (by decide)),
    toLower_evalEq, if_neg (by omega)]

/-- Python `str.lower` is idempotent over the supported alphabet. -/
theorem pyToLower_fix (c : Char) : pyToLower (pyToLower c) = pyToLower c := by
  by_cases h1 : c = 'Á'
  · rw [h1]; decide
  · by_cases h2 : c = 'É'
    · rw [h2]; decide
    · by_cases h3 : c = 'Í'
      · rw [h3]; decide
      · by_cases h4 : c = 'Ó'
        · rw [h4]; decide
        · by_cases h5 : c = 'Ú'
          · rw [h5]; decide
          · by_cases h6 : c = 'Ñ'
            · rw [h6]; decide
            · have hstep : pyToLower c = c.toLower := by
                unfold pyToLower
                rw [if_neg h1, if_neg h2, if_neg h3, if_neg h4, if_neg h5, if_neg h6]
              rw [hstep]
              by_cases h : 65 ≤ c.toNat ∧ c.toNat ≤ 90
              · rw [toLower_evalEq c, if_pos h]
                have hv := toNat_ofNat_valid (c.toNat + 32) (by omega)
                exact pyToLower_low (by omega) (by omega)
              · rw [toLower_evalEq c, if_neg h, hstep, toLower_evalEq c, if_neg h]

theorem space_cases {c : Char} (h : pySpace c = true) :
    c = ' ' ∨ c = '\t' ∨ c = '\n' ∨ c = '\r' ∨ c = '\x0b' ∨ c = '\x0c' := by
  unfold pySpace at h
  simp only [Bool.or_eq_true, decide_eq_true_eq] at h
  tauto

theorem space_not_word {c : Char} (h : pySpace c = true) : pyWordChar c = false := by
  rcases space_cases h with h | h | h | h | h | h <;> subst h <;> decide

theorem space_not_digit {c : Char} (h : pySpace c = true) : c.isDigit = false := by
  rcases space_cases h with h | h | h | h | h | h <;> subst h <;> decide

theorem word_not_space {c : Char} (h : pyWordChar c = true) : pySpace c = false := by
  by_cases hs : pySpace c = true
  · rw [space_not_word hs] at h
    exact absurd h (by simp)
  · simpa using hs

theorem dropPrefixChars_mem {ps cs r : List Char} (h : dropPrefixChars ps cs = some r) :
    ∀ x, x ∈ r → x ∈ cs := by
  induction ps generalizing cs with
  | nil =>
    simp [dropPrefixChars] at h
    subst h
    exact fun x hx => hx
  | cons p ps ih =>
    cases cs with
    | nil => simp [dropPrefixChars] at h
    | cons c cs =>
      simp [dropPrefixChars] at h
      rcases h with ⟨-, h⟩
      intro x hx
      exact List.mem_cons_of_mem c (ih h x hx)

theorem dropPrefixChars_prefix_mem {ps cs r : List Char}
    (h : dropPrefixChars ps cs = some r) : ∀ p ∈ ps, p ∈ cs := by
  induction ps generalizing cs with
  | nil => intro p hp; cases hp
  | cons p ps ih =>
    cases cs with
    | nil => simp [dropPrefixChars] at h
    | cons c cs =>
      simp [dropPrefixChars] at h
      rcases h with ⟨hcp, h⟩
      intro q hq
      rcases List.mem_cons.mp hq with h1 | h1
      · rw [h1, ← hcp]
        exact List.mem_cons_self c cs
      · exact List.mem_cons_of_mem c (ih h q h1)

theorem tryURL_colon {cs r : List Char} (h : tryURL cs = some r) : ':' ∈ cs := by
  unfold tryURL at h
  rcases hd : dropPrefixChars "https://".data cs with _ | r1
  · rcases hd2 : dropPrefixChars "http://".data cs with _ | r2
    · simp [hd, hd2] at h
    · exact dropPrefixChars_prefix_mem hd2 ':' (by decide)
  · exact dropPrefixChars_prefix_mem hd ':' (by decide)

theorem tryURL_mem {cs r : List Char} (h : tryURL cs = some r) : ∀ x ∈ r, x ∈ cs := by
  unfold tryURL at h
  rcases hd : dropPrefixChars "https://".data cs with _ | r1
  · rcases hd2 : dropPrefixChars "http://".data cs with _ | r2
    · simp [hd, hd2] at h
    · simp [hd, hd2] at h
      rcases ht : r2.takeWhile (fun c => !(pySpace c)) with _ | ⟨y, ys⟩
      · simp [ht] at h
      · simp [ht] at h
        intro x hx
        rw [← h] at hx
        exact dropPrefixChars_mem hd2 x ((List.dropWhile_sublist _).subset hx)
  · simp [hd] at h
    rcases ht : r1.takeWhile (fun c => !(pySpace c)) with _ | ⟨y, ys⟩
    · simp [ht] at h
    · simp [ht] at h
      intro x hx
      rw [← h] at hx
      exact dropPrefixChars_mem hd x ((List.dropWhile_sublist _).subset hx)

theorem removeURLs_mem : ∀ (n : Nat) (cs : List Char), cs.length ≤ n →
    ∀ x ∈ removeURLs cs, x ∈ cs := by
  intro n
  induction n with
  | zero =>
    intro cs hn x hx
    have : cs = [] := List.eq_nil_of_length_eq_zero (by omega)
    subst this
    rw [removeURLs_nil] at hx
    cases hx
  | succ n ih =>
    intro cs hn x hx
    cases cs with
    | nil =>
      rw [removeURLs_nil] at hx
      cases hx
    | cons c rest =>
      rw [removeURLs_cons] at hx
      rcases htry : tryURL (c :: rest) with _ | r
      · rw [htry] at hx
        dsimp only at hx
        rcases List.mem_cons.mp hx with h1 | h1
        · rw [h1]
          exact List.mem_cons_self c rest
        · have := ih rest (by simp at hn; omega) x h1
          exact List.mem_cons_of_mem c this
      · rw [htry] at hx
        dsimp only at hx
        have hr := tryURL_some_length htry
        have := ih r (by simp at hn hr ⊢; omega) x hx
        exact tryURL_mem htry x this

theorem removeURLs_subset (cs : List Char) : ∀ x ∈ removeURLs cs, x ∈ cs :=
  removeURLs_mem cs.length cs (le_refl _)

theorem removeURLs_noop : ∀ (n : Nat) (cs : List Char), cs.length ≤ n →
    (∀ x ∈ cs, pyWordChar x = true ∨ pySpace x = true) → removeURLs cs = cs := by
  intro n
  induction n with
  | zero =>
    intro cs hn _
    have : cs = [] := List.eq_nil_of_length_eq_zero (by omega)
    subst this
    rfl
  | succ n ih =>
    intro cs hn hall
    cases cs with
    | nil => rfl
    | cons c rest =>
      rw [removeURLs_cons]
      rcases htry : tryURL (c :: rest) with _ | r
      · dsimp only
        rw [ih rest (by simp at hn; omega) (fun x hx => hall x (by simp [hx]))]
      · exfalso
        have hc := tryURL_colon htry
        rcases hall ':' hc with h | h
        · exact absurd h (by decide)
        · exact absurd h (by decide)

theorem removeURLs_id (cs : List Char)
    (h : ∀ x ∈ cs, pyWordChar x = true ∨ pySpace x = true) : removeURLs cs = cs :=
  removeURLs_noop cs.length cs (le_refl _) h

theorem dropWhile_head_false {p : Char → Bool} : ∀ (l : List Char) (c : Char) (t : List Char),
    l.dropWhile p = c :: t → p c = false := by
  intro l
  induction l with
  | nil => intro c t h; simp [List.dropWhile] at h
  | cons a l ih =>
    intro c t h
    by_cases ha : p a = true
    · rw [List.dropWhile_cons_of_pos ha] at h
      exact ih c t h
    · rw [List.dropWhile_cons_of_neg ha] at h
      cases h
      simp only [Bool.not_eq_true] at ha
      exact ha

theorem takeWhile_all_append {p : Char → Bool} :
    ∀ (w t : List Char), (∀ x ∈ w, p x = true) →
      (w ++ t).takeWhile p = w ++ t.takeWhile p := by
  intro w
  induction w with
  | nil => intro t _; rfl
  | cons c wr ih =>
    intro t hall
    rw [List.cons_append, List.takeWhile_cons_of_pos (hall c (by simp)),
      ih t (fun x hx => hall x (by simp [hx])), List.cons_append]

theorem dropWhile_all_append {p : Char → Bool} :
    ∀ (w t : List Char), (∀ x ∈ w, p x = true) →
      (w ++ t).dropWhile p = t.dropWhile p := by
  intro w
  induction w with
  | nil => intro t _; rfl
  | cons c wr ih =>
    intro t hall
    rw [List.cons_append, List.dropWhile_cons_of_pos (hall c (by simp)),
      ih t (fun x hx => hall x (by simp [hx]))]

theorem takeWhile_stop {p : Char → Bool} (w t : List Char) (hall : ∀ x ∈ w, p x = true)
    (ht : t = [] ∨ ∃ c2 t2, t = c2 :: t2 ∧ p c2 = false) :
    (w ++ t).takeWhile p = w := by
  rw [takeWhile_all_append w t hall]
  rcases ht with h | ⟨c2, t2, h, hp⟩
  · subst h; simp
  · subst h
    rw [List.takeWhile_cons_of_neg (by simp [hp])]
    simp

theorem dropWhile_stop {p : Char → Bool} (w t : List Char) (hall : ∀ x ∈ w, p x = true)
    (ht : t = [] ∨ ∃ c2 t2, t = c2 :: t2 ∧ p c2 = false) :
    (w ++ t).dropWhile p = t := by
  rw [dropWhile_all_append w t hall]
  rcases ht with h | ⟨c2, t2, h, hp⟩
  · subst h; rfl
  · subst h
    rw [List.dropWhile_cons_of_neg (by simp [hp])]

theorem dropWhile_id_of_head {p : Char → Bool} (l : List Char)
    (h : l = [] ∨ ∃ c t, l = c :: t ∧ p c = false) : l.dropWhile p = l := by
  rcases h with h | ⟨c, t, h, hp⟩
  · subst h; rfl
  · subst h
    rw [List.dropWhile_cons_of_neg (by simp [hp])]

theorem splitWs_space (c : Char) (t : List Char) (hc : pySpace c = true) :
    splitWs (c :: t) = splitWs t := by
  rw [splitWs_cons, if_pos hc]

theorem splitWs_word (w t : List Char) (hw : w ≠ []) (hall : ∀ x ∈ w, pySpace x = false)
    (ht : t = [] ∨ ∃ c2 t2, t = c2 :: t2 ∧ pySpace c2 = true) :
    splitWs (w ++ t) = w :: splitWs t := by
  rcases w with _ | ⟨c, wr⟩
  · exact absurd rfl hw
  · rw [List.cons_append, splitWs_cons, if_neg (by simp [hall c (by simp)])]
    have hallb : ∀ x ∈ wr, (fun x => !(pySpace x)) x = true :=
      fun x hx => by simp [hall x (by simp [hx])]
    have htb : t = [] ∨ ∃ c2 t2, t = c2 :: t2 ∧ (fun x => !(pySpace x)) c2 = false := by
      rcases ht with h | ⟨c2, t2, h, hp⟩
      · exact Or.inl h
      · exact Or.inr ⟨c2, t2, h, by simp [hp]⟩
    rw [takeWhile_stop wr t hallb htb, dropWhile_stop wr t hallb htb]

/-- Tokens of `str.split()` are non-empty, whitespace-free parts of the input. -/
theorem splitWs_tokens_aux : ∀ (n : Nat) (cs : List Char), cs.length ≤ n →
    ∀ w ∈ splitWs cs, w ≠ [] ∧ ∀ x ∈ w, x ∈ cs ∧ pySpace x = false := by
  intro n
  induction n with
  | zero =>
    intro cs hn w hw
    have : cs = [] := List.eq_nil_of_length_eq_zero (by omega)
    subst this
    cases hw
  | succ n ih =>
    intro cs hn w hw
    cases cs with
    | nil => cases hw
    | cons c rest =>
      by_cases hsp : pySpace c = true
      · rw [splitWs_space c rest hsp] at hw
        have := ih rest (by simp at hn; omega) w hw
        exact ⟨this.1, fun x hx => ⟨List.mem_cons_of_mem c (this.2 x hx).1, (this.2 x hx).2⟩⟩
      · rw [splitWs_cons, if_neg hsp] at hw
        rcases List.mem_cons.mp hw with h1 | h1
        · subst h1
          refine ⟨by simp, ?_⟩
          intro x hx
          rcases List.mem_cons.mp hx with h2 | h2
          · subst h2
            exact ⟨List.mem_cons_self x rest, by simpa using hsp⟩
          · have hp := List.mem_takeWhile_imp h2
            refine ⟨List.mem_cons_of_mem c ((List.takeWhile_sublist _).subset h2), ?_⟩
            simpa using hp
        · have hlen : (rest.dropWhile fun x => !(pySpace x)).length ≤ n := by
            have := length_dropWhile_le (fun x => !(pySpace x)) rest
            simp at hn
            omega
          have := ih _ hlen w h1
          refine ⟨this.1, fun x hx => ⟨?_, (this.2 x hx).2⟩⟩
          exact List.mem_cons_of_mem c ((List.dropWhile_sublist _).subset (this.2 x hx).1)

theorem splitWs_tokens (cs : List Char) :
    ∀ w ∈ splitWs cs, w ≠ [] ∧ ∀ x ∈ w, x ∈ cs ∧ pySpace x = false :=
  splitWs_tokens_aux cs.length cs (le_refl _)

theorem splitWs_joinSpace : ∀ (ws : List (List Char)),
    (∀ w ∈ ws, w ≠ [] ∧ ∀ x ∈ w, pySpace x = false) → splitWs (joinSpace ws) = ws := by
  intro ws
  induction ws with
  | nil => intro _; rfl
  | cons w ws ih =>
    intro h
    rcases ws with _ | ⟨w2, ws2⟩
    · have hsw := splitWs_word w [] (h w (by simp)).1
        (fun x hx => (h w (by simp)).2 x hx) (Or.inl rfl)
      rw [List.append_nil] at hsw
      show splitWs (joinSpace [w]) = [w]
      simpa using hsw
    · show splitWs (w ++ ' ' :: joinSpace (w2 :: ws2)) = w :: w2 :: ws2
      rw [splitWs_word w (' ' :: joinSpace (w2 :: ws2)) (h w (by simp)).1
        (fun x hx => (h w (by simp)).2 x hx) (Or.inr ⟨' ', _, rfl, by decide⟩)]
      rw [splitWs_space ' ' _ (by decide)]
      rw [ih (fun v hv => h v (by simp [hv]))]

theorem joinSpace_mem : ∀ (ws : List (List Char)) (x : Char), x ∈ joinSpace ws →
    x = ' ' ∨ ∃ w, w ∈ ws ∧ x ∈ w := by
  intro ws
  induction ws with
  | nil => intro x hx; cases hx
  | cons w ws ih =>
    intro x hx
    rcases ws with _ | ⟨w2, ws2⟩
    · exact Or.inr ⟨w, by simp, hx⟩
    · have hx2 : x ∈ w ++ ' ' :: joinSpace (w2 :: ws2) := hx
      rcases List.mem_append.mp hx2 with h | h
      · exact Or.inr ⟨w, by simp, h⟩
      · rcases List.mem_cons.mp h with h1 | h1
        · exact Or.inl h1
        · rcases ih x h1 with h2 | ⟨v, hv, hxv⟩
          · exact Or.inl h2
          · exact Or.inr ⟨v, by simp [hv], hxv⟩

theorem joinSpace_ne_nil (w : List Char) (ws : List (List Char)) (hw : w ≠ []) :
    joinSpace (w :: ws) ≠ [] := by
  rcases ws with _ | ⟨w2, ws2⟩
  · simpa using hw
  · show w ++ ' ' :: joinSpace (w2 :: ws2) ≠ []
    simp

theorem joinSpace_headshape (ws : List (List Char))
    (hws : ∀ w ∈ ws, w ≠ [] ∧ ∀ x ∈ w, pySpace x = false) :
    joinSpace ws = [] ∨ ∃ c t, joinSpace ws = c :: t ∧ pySpace c = false := by
  rcases ws with _ | ⟨w, ws2⟩
  · exact Or.inl rfl
  · rcases hwe : w with _ | ⟨c, wr⟩
    · exact absurd hwe (hws w (by simp)).1
    · right
      have hc : pySpace c = false := (hws w (by simp)).2 c (by simp [hwe])
      rcases ws2 with _ | ⟨w2, ws3⟩
      · exact ⟨c, wr, rfl, hc⟩
      · exact ⟨c, wr ++ ' ' :: joinSpace (w2 :: ws3), rfl, hc⟩

theorem joinSpace_rev_headshape : ∀ (ws : List (List Char)),
    (∀ w ∈ ws, w ≠ [] ∧ ∀ x ∈ w, pySpace x = false) →
    (joinSpace ws).reverse = [] ∨
      ∃ c t, (joinSpace ws).reverse = c :: t ∧ pySpace c = false := by
  intro ws
  induction ws with
  | nil => intro _; exact Or.inl rfl
  | cons w ws ih =>
    intro h
    rcases ws with _ | ⟨w2, ws2⟩
    · right
      rcases hrev : w.reverse with _ | ⟨c, t⟩
      · exfalso
        have := congrArg List.length hrev
        simp at this
        exact (h w (by simp)).1 this
      · refine ⟨c, t, by simpa using hrev, ?_⟩
        have hcw : c ∈ w := by
          have hcr : c ∈ w.reverse := by rw [hrev]; simp
          simpa using hcr
        exact (h w (by simp)).2 c hcw
    · rcases ih (fun v hv => h v (by simp [hv])) with h0 | ⟨c, t, hrev, hc⟩
      · exfalso
        have hnil : joinSpace (w2 :: ws2) = [] := by
          have := congrArg List.reverse h0
          simpa using this
        exact joinSpace_ne_nil w2 ws2 (h w2 (by simp)).1 hnil
      · right
        refine ⟨c, t ++ ' ' :: w.reverse, ?_, hc⟩
        show (w ++ ' ' :: joinSpace (w2 :: ws2)).reverse = _
        rw [List.reverse_append, List.reverse_cons, hrev]
        simp

theorem collapseWs_word : ∀ (w t : List Char), (∀ x ∈ w, pySpace x = false) →
    collapseWs (w ++ t) = w ++ collapseWs t := by
  intro w
  induction w with
  | nil => intro t _; rfl
  | cons c wr ih =>
    intro t hall
    rw [List.cons_append, collapseWs_cons, if_neg (by simp [hall c (by simp)]),
      ih t (fun x hx => hall x (by simp [hx])), List.cons_append]

theorem collapse_join : ∀ (ws : List (List Char)),
    (∀ w ∈ ws, w ≠ [] ∧ ∀ x ∈ w, pySpace x = false) →
    collapseWs (joinSpace ws) = joinSpace ws := by
  intro ws
  induction ws with
  | nil => intro _; rfl
  | cons w ws ih =>
    intro h
    rcases ws with _ | ⟨w2, ws2⟩
    · have hc := collapseWs_word w [] (fun x hx => (h w (by simp)).2 x hx)
      show collapseWs w = w
      rw [List.append_nil] at hc
      rw [hc, show collapseWs ([] : List Char) = [] from rfl, List.append_nil]
    · show collapseWs (w ++ ' ' :: joinSpace (w2 :: ws2)) = w ++ ' ' :: joinSpace (w2 :: ws2)
      rw [collapseWs_word w _ (fun x hx => (h w (by simp)).2 x hx),
        collapseWs_cons, if_pos (by decide),
        dropWhile_id_of_head _ (joinSpace_headshape (w2 :: ws2) (fun v hv => h v (by simp [hv])))]
      rw [ih (fun v hv => h v (by simp [hv]))]

theorem strip_join (ws : List (List Char))
    (h : ∀ w ∈ ws, w ≠ [] ∧ ∀ x ∈ w, pySpace x = false) :
    stripWs (joinSpace ws) = joinSpace ws := by
  unfold stripWs
  rw [dropWhile_id_of_head _ (joinSpace_headshape ws h),
    dropWhile_id_of_head _ (joinSpace_rev_headshape ws h)]
  exact List.reverse_reverse _

theorem removeNums_space (b : Bool) (c : Char) (rest : List Char) (hs : pySpace c = true) :
    removeNums b (c :: rest) = c :: removeNums false rest := by
  rw [removeNums_cons, if_neg (by simp [space_not_digit hs]), space_not_word hs]

theorem removeNums_word : ∀ (w : List Char) (tail : List Char),
    (∀ x ∈ w, pyWordChar x = true) →
    removeNums true (w ++ tail) = w ++ removeNums true tail := by
  intro w
  induction w with
  | nil => intro tail _; rfl
  | cons c wr ih =>
    intro tail hall
    rw [List.cons_append, removeNums_cons, if_neg (by simp), hall c (by simp),
      ih tail (fun x hx => hall x (by simp [hx])), List.cons_append]

theorem removeNums_alldigit (w : List Char) (tail : List Char) (hw : w ≠ [])
    (hall : ∀ x ∈ w, x.isDigit = true)
    (htail : tail = [] ∨ ∃ c2 t2, tail = c2 :: t2 ∧ pySpace c2 = true) :
    removeNums false (w ++ tail) = removeNums true tail := by
  rcases w with _ | ⟨c, wr⟩
  · exact absurd rfl hw
  · rw [List.cons_append, removeNums_cons, if_pos (by simp [hall c (by simp)])]
    have hdw : (c :: (wr ++ tail)).dropWhile Char.isDigit = tail.dropWhile Char.isDigit := by
      rw [show c :: (wr ++ tail) = (c :: wr) ++ tail from rfl]
      exact dropWhile_all_append (c :: wr) tail hall
    rw [hdw]
    rcases htail with h | ⟨c2, t2, h, hsp⟩
    · subst h
      rfl
    · subst h
      rw [List.dropWhile_cons_of_neg (by simp [space_not_digit hsp])]
      dsimp only
      rw [if_neg (by simp [space_not_word hsp])]

theorem removeNums_token (w : List Char) (tail : List Char)
    (hall : ∀ x ∈ w, pyWordChar x = true) (hnd : w.all Char.isDigit = false) :
    removeNums false (w ++ tail) = w ++ removeNums true tail := by
  rcases w with _ | ⟨c, wr⟩
  · simp at hnd
  · by_cases hcd : c.isDigit = true
    · rw [List.cons_append, removeNums_cons, if_pos (by simp [hcd])]
      have hne : (c :: wr).dropWhile Char.isDigit ≠ [] := by
        intro hnil
        have hadig : ∀ x ∈ (c :: wr), Char.isDigit x = true :=
          List.dropWhile_eq_nil_iff.mp hnil
        have : (c :: wr).all Char.isDigit = true := List.all_eq_true.mpr hadig
        rw [this] at hnd
        cases hnd
      rcases hdd : (c :: wr).dropWhile Char.isDigit with _ | ⟨d, w2⟩
      · exact absurd hdd hne
      · have hdapp : (c :: (wr ++ tail)).dropWhile Char.isDigit = d :: (w2 ++ tail) := by
          rw [show c :: (wr ++ tail) = (c :: wr) ++ tail from rfl, List.dropWhile_append, hdd]
          simp
        rw [hdapp]
        dsimp only
        have hdmem : d ∈ (c :: wr) := by
          have : d ∈ (c :: wr).dropWhile Char.isDigit := by rw [hdd]; simp
          exact (List.dropWhile_sublist _).subset this
        rw [if_pos (hall d hdmem)]
        have htk : (c :: (wr ++ tail)).takeWhile Char.isDigit
            = (c :: wr).takeWhile Char.isDigit := by
          rw [show c :: (wr ++ tail) = (c :: wr) ++ tail from rfl, List.takeWhile_append]
          rw [if_neg]
          intro hlen
          have heq : (c :: wr).takeWhile Char.isDigit = c :: wr :=
            (List.takeWhile_sublist _).eq_of_length hlen
          have happ := List.takeWhile_append_dropWhile Char.isDigit (c :: wr)
          rw [heq] at happ
          have hlen2 := congrArg List.length happ
          rw [List.length_append] at hlen2
          have hz : ((c :: wr).dropWhile Char.isDigit).length = 0 := by omega
          exact hne (List.eq_nil_of_length_eq_zero hz)
        rw [htk, show d :: (w2 ++ tail) = (d :: w2) ++ tail from rfl,
          removeNums_word (d :: w2) tail (fun x hx => hall x ((List.dropWhile_sublist _).subset (hdd ▸ hx)))]
        have happ := List.takeWhile_append_dropWhile Char.isDigit (c :: wr)
        rw [hdd] at happ
        rw [← List.append_assoc, happ, List.cons_append]
    · rw [List.cons_append, removeNums_cons, if_neg (by simp [hcd]), hall c (by simp),
        removeNums_word wr tail (fun x hx => hall x (by simp [hx])), List.cons_append]

/-- On a word-character/whitespace string, removing the standalone numbers and
then splitting is splitting and then dropping the all-digit tokens. -/
theorem splitWs_removeNums : ∀ (n : Nat) (cs : List Char), cs.length ≤ n →
    (∀ x ∈ cs, pyWordChar x = true ∨ pySpace x = true) →
    splitWs (removeNums false cs) = (splitWs cs).filter fun w => !(w.all Char.isDigit) := by
  intro n
  induction n with
  | zero =>
    intro cs hn _
    have : cs = [] := List.eq_nil_of_length_eq_zero (by omega)
    subst this
    rfl
  | succ n ih =>
    intro cs hn hall
    rcases cs with _ | ⟨c, rest⟩
    · rfl
    · by_cases hsp : pySpace c = true
      · rw [removeNums_space false c rest hsp, splitWs_space c (removeNums false rest) hsp,
          splitWs_space c rest hsp]
        exact ih rest (by simp at hn; omega) (fun x hx => hall x (by simp [hx]))
      · have hwc : pyWordChar c = true := by
          rcases hall c (by simp) with h | h
          · exact h
          · exact absurd h hsp
        have hspf : pySpace c = false := by simpa using hsp
        set w := (c :: rest).takeWhile (fun x => !(pySpace x)) with hwdef
        set t := (c :: rest).dropWhile (fun x => !(pySpace x)) with htdef
        have hwt : w ++ t = c :: rest := List.takeWhile_append_dropWhile _ _
        have hwne : w ≠ [] := by
          rw [hwdef, List.takeWhile_cons_of_pos (by simp [hspf])]
          simp
        have hwall_ns : ∀ x ∈ w, pySpace x = false := by
          intro x hx
          rw [hwdef] at hx
          have := List.mem_takeWhile_imp hx
          simpa using this
        have hwmem : ∀ x ∈ w, x ∈ c :: rest := by
          intro x hx
          rw [hwdef] at hx
          exact (List.takeWhile_sublist _).subset hx
        have hwall_w : ∀ x ∈ w, pyWordChar x = true := by
          intro x hx
          rcases hall x (hwmem x hx) with h | h
          · exact h
          · rw [hwall_ns x hx] at h
            exact absurd h (by simp)
        have htshape : t = [] ∨ ∃ c2 t2, t = c2 :: t2 ∧ pySpace c2 = true := by
          rw [htdef]
          rcases hdd : (c :: rest).dropWhile (fun x => !(pySpace x)) with _ | ⟨c2, t2⟩
          · exact Or.inl rfl
          · right
            refine ⟨c2, t2, rfl, ?_⟩
            have := dropWhile_head_false _ c2 t2 hdd
            simpa using this
        have hlen : w.length + t.length = rest.length + 1 := by
          have := congrArg List.length hwt
          simpa using this
        have htlen : t.length ≤ n := by
          have h1 : 1 ≤ w.length := by
            rcases hww : w with _ | ⟨y, ys⟩
            · exact absurd hww hwne
            · simp [hww]
          simp at hn
          omega
        have htmem : ∀ x ∈ t, pyWordChar x = true ∨ pySpace x = true := by
          intro x hx
          rw [htdef] at hx
          exact hall x ((List.dropWhile_sublist _).subset hx)
        have hsplit : splitWs (c :: rest) = w :: splitWs t := by
          rw [← hwt]
          exact splitWs_word w t hwne hwall_ns htshape
        have hrn_t : removeNums true t = removeNums false t := by
          rcases htshape with h | ⟨c2, t2, h, hsp2⟩
          · rw [h]
            rfl
          · rw [h, removeNums_space true c2 t2 hsp2, removeNums_space false c2 t2 hsp2]
        by_cases hdig : w.all Char.isDigit = true
        · have hrm : removeNums false (c :: rest) = removeNums false t := by
            rw [← hwt, removeNums_alldigit w t hwne
              (fun x hx => List.all_eq_true.mp hdig x hx) htshape, hrn_t]
          rw [hrm, hsplit, List.filter_cons]
          simp only [hdig, Bool.not_true, Bool.false_eq_true, if_false]
          exact ih t htlen htmem
        · have hdigf : w.all Char.isDigit = false := by
            rcases hb : w.all Char.isDigit with _ | _
            · rfl
            · exact absurd hb hdig
          have hrm : removeNums false (c :: rest) = w ++ removeNums false t := by
            rw [← hwt, removeNums_token w t hwall_w hdigf, hrn_t]
          have hshape2 : removeNums false t = [] ∨
              ∃ c2 t2, removeNums false t = c2 :: t2 ∧ pySpace c2 = true := by
            rcases htshape with h | ⟨c2, t2, h, hsp2⟩
            · rw [h]
              exact Or.inl rfl
            · rw [h, removeNums_space false c2 t2 hsp2]
              exact Or.inr ⟨c2, removeNums false t2, rfl, hsp2⟩
          rw [hrm, hsplit, splitWs_word w _ hwne hwall_ns hshape2, List.filter_cons]
          simp only [hdigf, Bool.not_false, if_true]
          rw [ih t htlen htmem]

theorem map_fix {f : Char → Char} : ∀ (l : List Char), (∀ x ∈ l, f x = x) → l.map f = l := by
  intro l
  induction l with
  | nil => intro _; rfl
  | cons c rest ih =>
    intro h
    rw [List.map_cons, h c (by simp), ih (fun x hx => h x (by simp [hx]))]

theorem punct_noop (cs : List Char)
    (h : ∀ x ∈ cs, pyWordChar x = true ∨ pySpace x = true) : punctToSpace cs = cs := by
  unfold punctToSpace
  apply map_fix
  intro x hx
  rcases h x hx with h1 | h1 <;> simp [h1]

theorem punct_chars (cs : List Char) : ∀ x ∈ punctToSpace cs,
    (x ∈ cs ∧ (pyWordChar x = true ∨ pySpace x = true)) ∨ x = ' ' := by
  unfold punctToSpace
  intro x hx
  rcases List.mem_map.mp hx with ⟨c, hc, he⟩
  by_cases hw : (pyWordChar c || pySpace c) = true
  · left
    rw [if_pos hw] at he
    rw [← he]
    exact ⟨hc, by simpa using hw⟩
  · right
    rw [if_neg hw] at he
    exact he.symm

/-- Invariants of the tokens that make up a normalized string. -/
def TokenOK (w : List Char) : Prop :=
  w ≠ [] ∧ (∀ c ∈ w, pyWordChar c = true ∧ pyToLower c = c) ∧
    2 < w.length ∧ stop_words.contains w = false ∧ w.all Char.isDigit = false

theorem t3_chars (x : String) : ∀ c ∈ punctToSpace (removeURLs (x.data.map pyToLower)),
    (pyWordChar c = true ∨ pySpace c = true) ∧ pyToLower c = c := by
  intro c hc
  rcases punct_chars _ c hc with ⟨hmem, hclass⟩ | hsp
  · refine ⟨hclass, ?_⟩
    have h2 := removeURLs_subset _ c hmem
    rcases List.mem_map.mp h2 with ⟨c0, -, he⟩
    rw [← he]
    exact pyToLower_fix c0
  · rw [hsp]
    exact ⟨Or.inr (by decide), by decide⟩

/-- Shape of any normalizer output: a space-join of `TokenOK` tokens. -/
theorem normalize_shape (x : String) :
    ∃ ws, (∀ w ∈ ws, TokenOK w) ∧ normalize_text x = String.mk (joinSpace ws) := by
  by_cases hx : x = ""
  · refine ⟨[], by simp, ?_⟩
    rw [hx]
    rfl
  · have hch := t3_chars x
    set t3 := punctToSpace (removeURLs (x.data.map pyToLower)) with ht3
    have h1 : normalize_text x = String.mk (stripWs (collapseWs (joinSpace
        (((splitWs (removeNums false t3)).filter fun w => decide (w.length > 2)).filter
          fun w => !(stop_words.contains w))))) := by
      rw [ht3]
      unfold normalize_text
      rw [if_neg hx]
    rw [splitWs_removeNums t3.length t3 (le_refl _) (fun c hc => (hch c hc).1)] at h1
    set ws0 := ((((splitWs t3).filter fun w => !(w.all Char.isDigit)).filter
        fun w => decide (w.length > 2)).filter fun w => !(stop_words.contains w)) with hws0
    have htok : ∀ w ∈ ws0, TokenOK w := by
      intro w hw
      rw [hws0] at hw
      simp only [List.mem_filter] at hw
      obtain ⟨⟨⟨hmem, hnd⟩, hlen⟩, hstop⟩ := hw
      have hsp := splitWs_tokens t3 w hmem
      refine ⟨hsp.1, ?_, by simpa using hlen, by simpa using hstop, by simpa using hnd⟩
      intro cch hcch
      have hx3 := hsp.2 cch hcch
      have hcl := hch cch hx3.1
      refine ⟨?_, hcl.2⟩
      rcases hcl.1 with h | h
      · exact h
      · rw [hx3.2] at h
        exact absurd h (by simp)
    have hsf : ∀ w ∈ ws0, w ≠ [] ∧ ∀ x ∈ w, pySpace x = false :=
      fun w hw => ⟨(htok w hw).1, fun x hx => word_not_space ((htok w hw).2.1 x hx).1⟩
    rw [collapse_join ws0 hsf, strip_join ws0 hsf] at h1
    exact ⟨ws0, htok, h1⟩

/-- A space-join of `TokenOK` tokens is a fixed point of the normalizer. -/
theorem normalize_fix (ws : List (List Char)) (h : ∀ w ∈ ws, TokenOK w) :
    normalize_text (String.mk (joinSpace ws)) = String.mk (joinSpace ws) := by
  rcases ws with _ | ⟨w1, ws2⟩
  · rfl
  · have hne : String.mk (joinSpace (w1 :: ws2)) ≠ "" := by
      intro he
      exact joinSpace_ne_nil w1 ws2 (h w1 (by simp)).1 (congrArg String.data he)
    have hsf : ∀ w ∈ w1 :: ws2, w ≠ [] ∧ ∀ x ∈ w, pySpace x = false :=
      fun w hw => ⟨(h w hw).1, fun x hx => word_not_space ((h w hw).2.1 x hx).1⟩
    have hfix : ∀ c ∈ joinSpace (w1 :: ws2), pyToLower c = c := by
      intro c hc
      rcases joinSpace_mem _ c hc with h1 | ⟨w, hw, hcw⟩
      · rw [h1]; decide
      · exact ((h w hw).2.1 c hcw).2
    have hclass : ∀ c ∈ joinSpace (w1 :: ws2), pyWordChar c = true ∨ pySpace c = true := by
      intro c hc
      rcases joinSpace_mem _ c hc with h1 | ⟨w, hw, hcw⟩
      · right; rw [h1]; decide
      · left; exact ((h w hw).2.1 c hcw).1
    have h1 : normalize_text (String.mk (joinSpace (w1 :: ws2)))
        = String.mk (stripWs (collapseWs (joinSpace
          (((splitWs (removeNums false (punctToSpace (removeURLs
            ((joinSpace (w1 :: ws2)).map pyToLower))))).filter
              fun w => decide (w.length > 2)).filter
            fun w => !(stop_words.contains w))))) := by
      unfold normalize_text
      rw [if_neg hne]
    rw [map_fix _ hfix, removeURLs_id _ hclass, punct_noop _ hclass,
      splitWs_removeNums (joinSpace (w1 :: ws2)).length _ (le_refl _) hclass,
      splitWs_joinSpace _ hsf] at h1
    have e1 : (w1 :: ws2).filter (fun w => !(w.all Char.isDigit)) = w1 :: ws2 :=
      List.filter_eq_self.mpr (fun w hw => by simp [(h w hw).2.2.2.2])
    have e2 : (w1 :: ws2).filter (fun w => decide (w.length > 2)) = w1 :: ws2 :=
      List.filter_eq_self.mpr (fun w hw => by simp [(h w hw).2.2.1])
    have e3 : (w1 :: ws2).filter (fun w => !(stop_words.contains w)) = w1 :: ws2 :=
      List.filter_eq_self.mpr (fun w hw => by
        rw [Bool.not_eq_true']
        exact (h w hw).2.2.2.1)
    rw [e1, e2, e3] at h1
    rw [collapse_join _ hsf, strip_join _ hsf] at h1
    exact h1

/-! ## `extract_key_entities` (src/deduplicator.py lines 66-96)

The company regex `\b([A-ZÁÉÍÓÚÑ][a-záéíóúñ]+(?:\s+[A-ZÁÉÍÓÚÑ][a-záéíóúñ]+){0,3})\b`
is embedded as a scanner.  Greedy matching with backtracking reduces to: take a
capitalized word, then up to three more space-separated capitalized words; if
the trailing `\b` fails (next character is a word character) drop the last
group (after which a whitespace follows, so `\b` holds), and fail outright if
there was no group to drop (shrinking `[a-z]+` can never restore a `\b`). -/

def isUpperEnt (c : Char) : Bool := ('A' ≤ c && c ≤ 'Z') || accentUpper.contains c

def isLowerEnt (c : Char) : Bool := ('a' ≤ c && c ≤ 'z') || accentLower.contains c

/-- The trailing `\b` of the company pattern: the next character must not be a
word character (or the text must end). -/
def boundaryCheck (acc rem : List Char) : Option (List Char × List Char) :=
  match rem with
  | [] => some (acc, [])
  | d :: _ => if pyWordChar d then none else some (acc, rem)

/-- One further group `(?:\s+[A-Z...][a-z...]+)`: whitespace, a capital, at
least one lowercase letter (both runs greedy).  Returns the group's characters
and the remaining suffix. -/
def tryGroup (rem : List Char) : Option (List Char × List Char) :=
  match rem.takeWhile pySpace with
  | [] => none
  | _ :: _ =>
    match rem.dropWhile pySpace with
    | [] => none
    | u :: rest2 =>
      if isUpperEnt u then
        match rest2.takeWhile isLowerEnt with
        | [] => none
        | _ :: _ =>
          some (rem.takeWhile pySpace ++ u :: rest2.takeWhile isLowerEnt,
                rest2.dropWhile isLowerEnt)
      else none

/-- Up to `fuel` further groups, given the match `acc` so far; on a trailing
`\b` failure the last group is dropped (`none` from the recursive call). -/
def matchGroups : Nat → List Char → List Char → Option (List Char × List Char)
  | 0, acc, rem => boundaryCheck acc rem
  | fuel + 1, acc, rem =>
    match tryGroup rem with
    | some (g, rem2) =>
      match matchGroups fuel (acc ++ g) rem2 with
      | some r => some r
      | none => some (acc, rem)
    | none => boundaryCheck acc rem

/-- One attempted company-pattern match starting at the head of `cs` (the
caller has already established the left word boundary). -/
def matchCompanyAt : List Char → Option (List Char × List Char)
  | [] => none
  | c :: rest =>
    if isUpperEnt c then
      match rest.takeWhile isLowerEnt with
      | [] => none
      | _ :: _ =>
        matchGroups 3 (c :: rest.takeWhile isLowerEnt) (rest.dropWhile isLowerEnt)
    else none

theorem boundaryCheck_rem {acc rem m rem' : List Char}
    (h : boundaryCheck acc rem = some (m, rem')) : rem'.length ≤ rem.length := by
  unfold boundaryCheck at h
  rcases rem with _ | ⟨d, t⟩
  · simp at h; simp [h.2]
  · by_cases hw : pyWordChar d
    · simp [hw] at h
    · simp [hw] at h; simp [← h.2]

theorem tryGroup_rem {rem g rem2 : List Char} (h : tryGroup rem = some (g, rem2)) :
    rem2.length < rem.length := by
  unfold tryGroup at h
  rcases ht : rem.takeWhile pySpace with _ | ⟨s, st⟩
  · rw [ht] at h; simp at h
  · rw [ht] at h
    rcases hd : rem.dropWhile pySpace with _ | ⟨u, rest2⟩
    · rw [hd] at h; simp at h
    · rw [hd] at h
      dsimp only at h
      by_cases hu : isUpperEnt u
      · rw [if_pos hu] at h
        rcases hl : rest2.takeWhile isLowerEnt with _ | ⟨l, lt⟩
        · rw [hl] at h; simp at h
        · rw [hl] at h
          simp at h
          have h2 : (rest2.dropWhile isLowerEnt).length ≤ rest2.length :=
            length_dropWhile_le _ _
          have h3 : rest2.length < rem.length := by
            have h4 := congrArg List.length
              (List.takeWhile_append_dropWhile pySpace rem)
            rw [ht, hd] at h4
            simp at h4
            omega
          rw [← h.2]
          omega
      · rw [if_neg hu] at h; simp at h

theorem matchGroups_rem : ∀ (fuel : Nat) (acc rem0 m rem : List Char),
    matchGroups fuel acc rem0 = some (m, rem) → rem.length ≤ rem0.length := by
  intro fuel
  induction fuel with
  | zero => intro acc rem0 m rem h; exact boundaryCheck_rem h
  | succ n ih =>
    intro acc rem0 m rem h
    unfold matchGroups at h
    rcases hg : tryGroup rem0 with _ | ⟨g, rem2⟩
    · rw [hg] at h; exact boundaryCheck_rem h
    · rw [hg] at h
      dsimp only at h
      have hlt := tryGroup_rem hg
      rcases hrec : matchGroups n (acc ++ g) rem2 with _ | r
      · rw [hrec] at h; simp at h; simp [← h.2]
      · rw [hrec] at h
        rcases r with ⟨rm, rr⟩
        have h1 := ih _ _ _ _ hrec
        simp at h
        rcases h with ⟨-, h2⟩
        subst h2
        omega

theorem matchCompanyAt_rem {cs m rem : List Char}
    (h : matchCompanyAt cs = some (m, rem)) : rem.length < cs.length := by
  rcases cs with _ | ⟨c, rest⟩
  · simp [matchCompanyAt] at h
  · unfold matchCompanyAt at h
    dsimp only at h
    by_cases hu : isUpperEnt c
    · rw [if_pos hu] at h
      rcases hl : rest.takeWhile isLowerEnt with _ | ⟨l, lt⟩
      · rw [hl] at h; simp at h
      · rw [hl] at h
        have h1 := matchGroups_rem _ _ _ _ _ h
        have h2 : (rest.dropWhile isLowerEnt).length + (l :: lt).length ≤ rest.length := by
          have h3 := congrArg List.length
            (List.takeWhile_append_dropWhile isLowerEnt rest)
          rw [hl] at h3
          simp at h3
          simp
          omega
        simp at h2 ⊢
        omega
    · rw [if_neg hu] at h; simp at h

/-- The company-pattern scanner: `re.findall` over the text, non-overlapping,
left-to-right; `prevWord` tracks whether the previous character of the
original text is a word character (for the left `\b`). -/
def findCompanies : Bool → List Char → List (List Char)
  | _, [] => []
  | prevWord, c :: rest =>
    if !prevWord then
      match h : matchCompanyAt (c :: rest) with
      | some (m, rem) => m :: findCompanies true rem
      | none => findCompanies (pyWordChar c) rest
    else findCompanies (pyWordChar c) rest
termination_by _ cs => cs.length
decreasing_by
  · exact matchCompanyAt_rem h
  · simp
  · simp

/-- Insertion into a Python set modelled as a duplicate-free list (only
membership and cardinality are ever consumed, so insertion order is
immaterial). -/
def insertSet (s : List String) (x : String) : List String :=
  if s.contains x then s else s ++ [x]

def action_keywords : List String :=
  ["adquisición", "fusión", "inversión", "expansión", "lanzamiento",
   "acquisition", "merger", "investment", "expansion", "launch",
   "venture", "partnership", "transformación", "digital"]

def isPrefixList : List Char → List Char → Bool
  | [], _ => true
  | _ :: _, [] => false
  | p :: ps, c :: cs => p = c && isPrefixList ps cs

/-- Python `sub in s` (substring containment). -/
def containsSub (sub : List Char) : List Char → Bool
  | [] => isPrefixList sub []
  | c :: t => isPrefixList sub (c :: t) || containsSub sub t

/-- `extract_key_entities` (src/deduplicator.py): lowercased company-pattern
matches longer than 4 characters, plus every action keyword occurring as a
substring of the lowercased text. -/
def extract_key_entities (text : String) : List String :=
  let companies := findCompanies false text.data
  let e1 := companies.foldl
    (fun s c => if c.length > 4 then insertSet s (String.mk (c.map pyToLower)) else s) []
  let textLower := text.data.map pyToLower
  action_keywords.foldl
    (fun s kw => if containsSub kw.data textLower then insertSet s kw else s) e1

/-! ## `check_content_similarity` / `is_duplicate_opportunity`
(src/deduplicator.py lines 156-293) -/

/-- A date field of a stored record: absent (or falsy), present but not
ISO-parseable, or parsed to a timestamp.  Timestamps are modelled in days. -/
inductive DateField where
  | absent
  | invalid
  | valid (t : Int)
deriving Repr, DecidableEq

structure Opp where
  headline : String
  company_name : String
  source_url : String
  notified_at : DateField
  created_at : DateField
deriving Repr, DecidableEq

structure DupInfo where
  headline : String
  company : String
  similarity : ℚ
  reason : String
  shared_entities : Option (List String)
deriving Repr, DecidableEq

/-- Entities of one side: the extracted entities plus, when a company name is
given, its normalized form and (when longer than 3 characters) its first
normalized word. -/
def sideEntities (headline company : String) : List String :=
  let base := extract_key_entities headline
  if company = "" then base
  else
    let cn := normalize_text company
    let s1 := insertSet base cn
    let fw := match splitWs cn.data with
      | [] => ""
      | w :: _ => String.mk w
    if fw.length > 3 then insertSet s1 fw else s1

/-- REGLA 1 of `check_content_similarity`: same normalized company name, or one
contained in the other. -/
def companyMatch (new_company opp_company : String) : Bool :=
  if new_company ≠ "" && opp_company ≠ "" then
    if normalize_text new_company = normalize_text opp_company then true
    else containsSub (normalize_text new_company).data (normalize_text opp_company).data
      || containsSub (normalize_text opp_company).data (normalize_text new_company).data
  else false

/-- The per-candidate loop body of `check_content_similarity`. -/
def checkLoop (new_headline new_company : String) (new_entities : List String)
    (similarity_threshold : ℚ) : List Opp → Bool × Option DupInfo
  | [] => (false, none)
  | opp :: rest =>
    let opp_entities := sideEntities opp.headline opp.company_name
    let cm := companyMatch new_company opp.company_name
    let ts := calculate_text_similarity new_headline opp.headline
    let shared := new_entities.filter fun e => opp_entities.contains e
    let overlap : ℚ :=
      (shared.length : ℚ) / (max new_entities.length opp_entities.length : Nat)
    if ts ≥ similarity_threshold then
      (true, some ⟨opp.headline, opp.company_name, ts, "high_text_similarity", none⟩)
    else if cm && ts ≥ 45 / 100 then
      (true, some ⟨opp.headline, opp.company_name, ts, "same_company_similar_content", none⟩)
    else if new_entities.length > 0 && opp_entities.length > 0 && cm && overlap ≥ 1 / 2 then
      (true, some ⟨opp.headline, opp.company_name, overlap, "same_company_shared_entities",
        some shared⟩)
    else if new_entities.length > 0 && opp_entities.length > 0 && overlap ≥ 70 / 100 then
      (true, some ⟨opp.headline, opp.company_name, overlap, "high_entity_overlap", some shared⟩)
    else checkLoop new_headline new_company new_entities similarity_threshold rest

/-- `check_content_similarity` (src/deduplicator.py lines 156-252). -/
def check_content_similarity (new_headline new_company : String)
    (recent_opportunities : List Opp) (similarity_threshold : ℚ) : Bool × Option DupInfo :=
  checkLoop new_headline new_company (sideEntities new_headline new_company)
    similarity_threshold recent_opportunities

/-- Python `x or y` on date fields (`absent` is the falsy case). -/
def dateOr : DateField → DateField → DateField
  | DateField.absent, d => d
  | d, _ => d

/-- The date pre-filter of `is_duplicate_opportunity`: keep records dated
within the lookback, and fail open (keep) on a missing or unparseable date. -/
def filterRecent (now : Int) (days_lookback : Nat) (opps : List Opp) : List Opp :=
  opps.filter fun opp =>
    match dateOr opp.notified_at opp.created_at with
    | DateField.absent => true
    | DateField.invalid => true
    | DateField.valid t => decide (now - days_lookback ≤ t)

/-- `is_duplicate_opportunity` (src/deduplicator.py lines 255-293); `now` is
`datetime.now()` passed explicitly. -/
def is_duplicate_opportunity (now : Int) (new_headline new_company : String)
    (recent_opportunities : List Opp) (days_lookback : Nat) : Bool × Option DupInfo :=
  check_content_similarity new_headline new_company
    (filterRecent now days_lookback recent_opportunities) (75 / 100)

/-! ## Semantic filter (src/semantic_filter.py)

The sentence-transformer is abstracted: embedding vectors form an arbitrary
type `α`, `model.encode` is `encode : Option (String → α)` (`none` models an
unavailable model), and cosine similarity is a parameter `cos : α → α → ℚ`.
`save_training_data` is modelled as returning the stored value. -/

structure FilterData (α : Type) where
  positive : List (String × α)
  negative : List (String × String × α)
  positive_embeddings : Option (List α)
  negative_embeddings : Option (List α)
deriving DecidableEq

/-- The empty structure `load_training_data` returns when no file exists. -/
def emptyTrainingData (α : Type) : FilterData α := ⟨[], [], none, none⟩

def save_training_data {α : Type} (d : FilterData α) : FilterData α := d

/-- `add_positive_example` (src/semantic_filter.py lines 68-90). -/
def add_positive_example {α : Type} (encode : Option (String → α))
    (data : FilterData α) (text : String) : FilterData α :=
  match encode with
  | none => data
  | some enc =>
    let pos0 := data.positive ++ [(text, enc text)]
    let pos := if pos0.length > 2000 then pos0.drop (pos0.length - 2000) else pos0
    let pe := if !pos.isEmpty then some (pos.map (·.2)) else data.positive_embeddings
    save_training_data { data with positive := pos, positive_embeddings := pe }

/-- `add_negative_example` (src/semantic_filter.py lines 92-117): per the
source's comment, only the text is embedded ("Only embed the text to keep
semantic space clean"). -/
def add_negative_example {α : Type} (encode : Option (String → α))
    (data : FilterData α) (text reason : String) : FilterData α :=
  match encode with
  | none => data
  | some enc =>
    let neg0 := data.negative ++ [(text, reason, enc text)]
    let neg := if neg0.length > 2000 then neg0.drop (neg0.length - 2000) else neg0
    let ne := if !neg.isEmpty then some (neg.map (·.2.2)) else data.negative_embeddings
    save_training_data { data with negative := neg, negative_embeddings := ne }

/-- Python `max` over a list of numbers (never called on `[]` in the source;
the `[]` case is an arbitrary default). -/
def pyMaxQ : List ℚ → ℚ
  | [] => 0
  | [x] => x
  | x :: y :: t => max x (pyMaxQ (y :: t))

/-- Python `max(..., key=lambda x: x[0])`: the first element with maximal
first component. -/
def pyMaxByFst : List (ℚ × String) → ℚ × String
  | [] => (0, "")
  | [x] => x
  | x :: y :: t =>
    let m := pyMaxByFst (y :: t)
    if m.1 > x.1 then m else x

/-- `predict_relevance` (src/semantic_filter.py lines 123-186).  Explanation
strings keep the source's text but abbreviate the `\x7b:.2f\x7d` numeric
formatting as `toString`. -/
def predict_relevance {α : Type} (encode : Option (String → α)) (cos : α → α → ℚ)
    (data : FilterData α) (text : String) (threshold : ℚ) : Bool × ℚ × String :=
  match encode with
  | none => (true, 1/2, "Modelo semántico no disponible")
  | some enc =>
    if data.positive.isEmpty && data.negative.isEmpty then
      (true, 1/2, "Sin datos de entrenamiento")
    else if data.positive.length < 5 then
      (true, 1/2, "Insuficientes ejemplos positivos (" ++
        toString data.positive.length ++ "/5)")
    else
      let text_embedding := enc text
      let pos_similarity : ℚ :=
        match data.positive_embeddings with
        | some pe => if pe.length > 0 then pyMaxQ (pe.map (cos text_embedding)) else 0
        | none => 0
      let negPair : ℚ × String :=
        match data.negative_embeddings with
        | some ne =>
          if ne.length > 0 then
            pyMaxByFst ((ne.zip (data.negative.map fun e => e.2.1)).map
              fun p => (cos text_embedding p.1, p.2))
          else (0, "")
        | none => (0, "")
      let margin := pos_similarity - negPair.1
      let relevance_score := max 0 (min 1 (1/2 + margin / 2))
      let is_relevant := relevance_score ≥ threshold
      if is_relevant then
        (true, relevance_score,
         "Similar a ejemplos positivos (score: " ++ toString relevance_score ++ ")")
      else
        (false, relevance_score,
         "Similar a rechazos: " ++ (negPair.2.take 50) ++
           " (score: " ++ toString relevance_score ++ ")")

/-- `semantic_pre_filter` (src/semantic_filter.py lines 188-209). -/
def semantic_pre_filter {α : Type} (encode : Option (String → α)) (cos : α → α → ℚ)
    (data : FilterData α) (content : String) (threshold : ℚ) : Bool :=
  if content = "" then false
  else (predict_relevance encode cos data content threshold).1

/-! ## Call budget router (src/agent.py lines 25-34 and 330-347) -/

def MODEL_ROTATION : List (String × Nat) :=
  [("gemini-3-flash-preview", 20), ("gemini-2.5-flash", 20),
   ("gemini-2.5-flash-lite", 20), ("gemini-2.0-flash", 20),
   ("gemini-2.0-flash-lite", 20)]

def TOTAL_DAILY_LIMIT : Nat := (MODEL_ROTATION.map (·.2)).sum

/-- The tier-selection loop of `run_collection_phase` with its running
`calls_made` accumulator. -/
def routerLoop (api_call_counter : Nat) : Nat → List (String × Nat) → Option String
  | _, [] => none
  | calls_made, (name, limit) :: rest =>
    if api_call_counter < calls_made + limit then some name
    else routerLoop api_call_counter (calls_made + limit) rest

/-- The call-budget router as a function of the counter and the tier list. -/
def current_provider (tiers : List (String × Nat)) (api_call_counter : Nat) :
    Option String :=
  routerLoop api_call_counter 0 tiers

/-! ## Classification responses and `analyze_text_with_ai`
(src/agent.py lines 222-248)

A raw attempt outcome is: a successfully parsed JSON dict; a response whose
text fails `json.loads` (a non-"429" exception, so the function returns
`None`); an exception whose message contains "429" (retried with backoff); or
any other exception (returns `None`).  Parsed dicts are association lists of
string/bool JSON values (the shapes this pipeline produces and consumes). -/

inductive JVal where
  | jstr (s : String)
  | jbool (b : Bool)
deriving Repr, DecidableEq

abbrev JDict := List (String × JVal)

def jlookup (d : JDict) (k : String) : Option JVal :=
  (d.find? fun p => p.1 = k).map (·.2)

/-- Python `dict.get(k, default)`. -/
def jgetD (d : JDict) (k : String) (dflt : JVal) : JVal := (jlookup d k).getD dflt

/-- String coercion for values this pipeline stores as text (the source
relies on these values being strings). -/
def jstrOf : JVal → String
  | JVal.jstr s => s
  | JVal.jbool b => if b then "True" else "False"

/-- Python truthiness of a JSON value. -/
def jtruthy : JVal → Bool
  | JVal.jstr s => s ≠ ""
  | JVal.jbool b => b

inductive ApiResp where
  | ok (d : JDict)
  | badJson
  | rateLimited
  | err
deriving Repr, DecidableEq

/-- The retry loop of `analyze_text_with_ai` (`max_retries = 3`): attempt
outcomes are indexed by attempt number; only "429" outcomes are retried. -/
def analyzeAttempt (responses : Nat → ApiResp) : Nat → Nat → Option JDict
  | 0, _ => none
  | fuel + 1, attempt =>
    match responses attempt with
    | ApiResp.ok d => some d
    | ApiResp.badJson => none
    | ApiResp.err => none
    | ApiResp.rateLimited => analyzeAttempt responses fuel (attempt + 1)

def analyze_text_with_ai (responses : Nat → ApiResp) : Option JDict :=
  analyzeAttempt responses 3 0

/-! ## Store operations (src/database.py), over an in-memory row list

`source_url` carries a UNIQUE constraint: inserting an existing URL raises
`IntegrityError`, which every writer swallows (the table is unchanged).
`company_name` is never written by these code paths (SQL NULL, modelled "").
SQL `CURRENT_TIMESTAMP` and `datetime.now()` are the explicit `now`. -/

structure DbRow where
  source_url : String
  headline : String
  company_name : String
  source_type : String
  country : Option String
  content : Option String
  analysis_json : Option JDict
  status : String
  created_at : DateField
  processed_at : DateField
  notified_at : DateField
deriving Repr, DecidableEq

/-- `add_opportunity` (src/database.py lines 54-75); `status` defaults to
`'detected'`, `created_at` to the current time. -/
def add_opportunity (db : List DbRow) (now : Int) (url headline source_type : String)
    (country : Option String) (content : Option String) (analysis_json : Option JDict) :
    List DbRow :=
  if (db.map (·.source_url)).contains url then db
  else db ++ [{ source_url := url, headline := headline, company_name := "",
                source_type := source_type, country := country, content := content,
                analysis_json := analysis_json, status := "detected",
                created_at := DateField.valid now, processed_at := DateField.valid now,
                notified_at := DateField.absent }]

/-- `add_pending_article` (src/database.py lines 158-177). -/
def add_pending_article (db : List DbRow) (now : Int) (url headline source_type : String)
    (country : Option String) (content : Option String) : List DbRow :=
  if (db.map (·.source_url)).contains url then db
  else db ++ [{ source_url := url, headline := headline, company_name := "",
                source_type := source_type, country := country, content := content,
                analysis_json := none, status := "pending",
                created_at := DateField.valid now, processed_at := DateField.absent,
                notified_at := DateField.absent }]

/-- `add_ai_rejected_article` (src/database.py lines 179-201). -/
def add_ai_rejected_article (db : List DbRow) (now : Int)
    (url headline source_type : String) (country : Option String)
    (content : Option String) (rejection_reason : String) : List DbRow :=
  if (db.map (·.source_url)).contains url then db
  else
    let aj : Option JDict :=
      if rejection_reason ≠ "" then
        some [("is_opportunity", JVal.jbool false), ("reason", JVal.jstr rejection_reason)]
      else none
    db ++ [{ source_url := url, headline := headline, company_name := "",
             source_type := source_type, country := country, content := content,
             analysis_json := aj, status := "ai_rejected",
             created_at := DateField.valid now, processed_at := DateField.valid now,
             notified_at := DateField.absent }]

/-- `ORDER BY notified_at DESC`: SQL NULLs are smallest, so they come last in
descending order. -/
def recentBefore (r1 r2 : DbRow) : Bool :=
  match r1.notified_at, r2.notified_at with
  | DateField.valid t1, DateField.valid t2 => t2 ≤ t1
  | DateField.valid _, _ => true
  | _, DateField.valid _ => false
  | _, _ => true

/-- `get_recent_opportunities` (src/database.py lines 277-311): only rows with
`status = 'notified'`, newest first, at most 100. -/
def get_recent_opportunities (db : List DbRow) : List Opp :=
  (((db.filter fun r => r.status = "notified").mergeSort recentBefore).take 100).map
    fun r => ⟨r.headline, r.company_name, r.source_url, r.notified_at, r.created_at⟩

/-! ## `send_slack_notification` (src/slack_notifier.py)

The Slack client call is an oracle `postOk`; the channel table, alias table,
token/channel guards, and the strict five-field validation are embedded.  The
`json.loads` of the dumped analysis dict is the identity in this model (the
orchestrator always passes `json.dumps` of a parsed dict). -/

def CHANNELS : List (String × String) :=
  [("es", "CHANNELID"), ("pt", "CHANNELID"), ("br", "CHANNELID"),
   ("mx", "CHANNELID"), ("pe", "CHANNELID"), ("cl", "CHANNELID"),
   ("co", "CHANNELID"), ("gt", "CHANNELID"), ("ar", "CHANNELID"),
   ("ec", "CHANNELID"), ("py", "CHANNELID"), ("uy", "CHANNELID")]

def COUNTRY_ALIASES : List (String × String) :=
  [("spain", "es"), ("españa", "es"), ("espana", "es"), ("portugal", "pt"),
   ("brazil", "br"), ("brasil", "br"), ("mexico", "mx"), ("méxico", "mx"),
   ("peru", "pe"), ("perú", "pe"), ("chile", "cl"), ("colombia", "co"),
   ("guatemala", "gt"), ("argentina", "ar"), ("ecuador", "ec"),
   ("paraguay", "py"), ("uruguay", "uy")]

def alookup (l : List (String × String)) (k : String) : Option String :=
  (l.find? fun p => p.1 = k).map (·.2)

def send_slack_notification (slack_token : Option String)
    (fallback_channel : Option String) (postOk : Bool) (analysis : JDict)
    (source_url : String) (country : Option String) : Bool :=
  let ck0 : Option String :=
    match country with
    | some c => if c = "" then none else some (String.mk (c.data.map pyToLower))
    | none => none
  let ck : Option String :=
    match ck0 with
    | some k => if (alookup CHANNELS k).isNone then some ((alookup COUNTRY_ALIASES k).getD k)
                else some k
    | none => none
  let channel_id : Option String :=
    match ck with
    | some k =>
      match alookup CHANNELS k with
      | some v => some v
      | none => fallback_channel
    | none => fallback_channel
  if slack_token.getD "" = "" then false
  else if channel_id.getD "" = "" then false
  else
    let company_name := jgetD analysis "company_name" (JVal.jstr "")
    let opportunity_summary := jgetD analysis "opportunity_summary" (JVal.jstr "")
    let company_fit := jgetD analysis "COMPANY_fit" (JVal.jstr "")
    let proposed_solution := jgetD analysis "proposed_solution" (JVal.jstr "")
    let value_proposition := jgetD analysis "value_proposition" (JVal.jstr "")
    if !(jtruthy company_name && jtruthy opportunity_summary && jtruthy company_fit &&
         jtruthy proposed_solution && jtruthy value_proposition) then false
    else postOk

/-! ## One iteration of the collection loop (src/agent.py lines 299-425)

`pre_filter_content` depends on the pickled Naive-Bayes model and the lazily
loaded transformer, so its outcome for the item is an oracle; the dedup layer,
budget router, retry loop, store writes, notifier call and training updates
are the embedded definitions.  The returned flag is `false` when the loop
`break`s (budget exhausted before this item). -/

structure Item where
  source_url : String
  content : String
  source_type : String
  country : Option String
deriving Repr, DecidableEq

structure RunState (α : Type) where
  processed_urls : List String
  recent_opportunities : List Opp
  api_call_counter : Nat
  new_opportunities_count : Nat
  duplicates_found : Nat
  db : List DbRow
  training : FilterData α
deriving DecidableEq

structure ItemEnv (α : Type) where
  now : Int
  prefilter : Bool
  responses : Nat → ApiResp
  slack_token : Option String
  fallback_channel : Option String
  postOk : Bool
  encode : Option (String → α)

def processItem {α : Type} (env : ItemEnv α) (st : RunState α) (item : Item) :
    RunState α × Bool :=
  if st.processed_urls.contains item.source_url then (st, true)
  else if !env.prefilter then (st, true)
  else
    match is_duplicate_opportunity env.now item.content "" st.recent_opportunities 7 with
    | (true, _) => ({ st with duplicates_found := st.duplicates_found + 1 }, true)
    | (false, _) =>
      match current_provider MODEL_ROTATION st.api_call_counter with
      | none => (st, false)
      | some _current_model =>
        let analysis_result := analyze_text_with_ai env.responses
        let c1 := st.api_call_counter + 1
        match analysis_result with
        | some d =>
          if d ≠ [] && jlookup d "is_opportunity" = some (JVal.jbool true) then
            let new_headline := jstrOf (jgetD d "opportunity_summary" (JVal.jstr "Sin resumen"))
            let new_company := jstrOf (jgetD d "company_name" (JVal.jstr ""))
            let db1 := add_opportunity st.db env.now item.source_url new_headline
              item.source_type item.country (some item.content) (some d)
            let _notified := send_slack_notification env.slack_token env.fallback_channel
              env.postOk d item.source_url item.country
            let tr1 := add_positive_example env.encode st.training item.content
            let rec1 := st.recent_opportunities ++
              [⟨new_headline, new_company, item.source_url,
                DateField.valid env.now, DateField.valid env.now⟩]
            ({ st with api_call_counter := c1, db := db1, training := tr1,
                       recent_opportunities := rec1,
                       new_opportunities_count := st.new_opportunities_count + 1 }, true)
          else
            let reason := jstrOf (jgetD d "reason" (JVal.jstr "No especificada"))
            let db1 := add_ai_rejected_article st.db env.now item.source_url ""
              item.source_type item.country (some item.content) reason
            let tr1 := add_negative_example env.encode st.training item.content reason
            ({ st with api_call_counter := c1, db := db1, training := tr1 }, true)
        | none =>
          let db1 := add_pending_article st.db env.now item.source_url ""
            item.source_type item.country (some item.content)
          ({ st with api_call_counter := c1 - 1, db := db1 }, true)

/-! ## Reference definitions written from the spec's wording
(used only to compare against the embedded code in refinement claims) -/

/-- The ordered tier list with each tier's cumulative limit. -/
def cumTiers : List (String × Nat) → Nat → List (String × Nat)
  | [], _ => []
  | (name, limit) :: rest, acc => (name, acc + limit) :: cumTiers rest (acc + limit)

/-- The router as the spec words it: walk the ordered tier list accumulating
limits; select the first tier whose cumulative limit strictly exceeds
`calls_made`. -/
def specRouter (tiers : List (String × Nat)) (calls_made : Nat) : Option String :=
  ((cumTiers tiers 0).find? fun p => calls_made < p.2).map (·.1)

/-- Per-candidate rule cascade as the spec words it, in the fixed order
(a) `text_sim ≥ 0.75`, (b) `company_match ∧ text_sim ≥ 0.45`,
(c) `company_match ∧ entity_overlap ≥ 0.5`, (d) `entity_overlap ≥ 0.70`.
The spec's "entity overlap is 0 if either set is empty" holds for this
formula as it stands: an empty side makes the shared set empty (and in `ℚ`
division by zero is zero). -/
def specRuleHit (new_headline new_company : String) (new_entities : List String)
    (opp : Opp) : Option DupInfo :=
  let opp_entities := sideEntities opp.headline opp.company_name
  let cm := companyMatch new_company opp.company_name
  let ts := calculate_text_similarity new_headline opp.headline
  let shared := new_entities.filter fun e => opp_entities.contains e
  let overlap : ℚ :=
    (shared.length : ℚ) / (max new_entities.length opp_entities.length : Nat)
  if ts ≥ 75 / 100 then
    some ⟨opp.headline, opp.company_name, ts, "high_text_similarity", none⟩
  else if cm && ts ≥ 45 / 100 then
    some ⟨opp.headline, opp.company_name, ts, "same_company_similar_content", none⟩
  else if cm && overlap ≥ 1 / 2 then
    some ⟨opp.headline, opp.company_name, overlap, "same_company_shared_entities", some shared⟩
  else if overlap ≥ 70 / 100 then
    some ⟨opp.headline, opp.company_name, overlap, "high_entity_overlap", some shared⟩
  else none

/-- Candidates examined in input order; the first candidate for which a rule
fires is returned, `(false, none)` when no rule fires for any candidate. -/
def firstRuleHit (new_headline new_company : String) (new_entities : List String) :
    List Opp → Bool × Option DupInfo
  | [] => (false, none)
  | opp :: rest =>
    match specRuleHit new_headline new_company new_entities opp with
    | some info => (true, some info)
    | none => firstRuleHit new_headline new_company new_entities rest

/-! # Theorems -/

/-! ## C3: the call budget router -/

theorem routerLoop_none_iff (calls : Nat) :
    ∀ (tiers : List (String × Nat)) (acc : Nat), acc ≤ calls →
      (routerLoop calls acc tiers = none ↔ acc + (tiers.map (·.2)).sum ≤ calls) := by
  intro tiers
  induction tiers with
  | nil => intro acc hacc; simp [routerLoop]; omega
  | cons t rest ih =>
    intro acc hacc
    rcases t with ⟨name, limit⟩
    rw [routerLoop]
    by_cases hlt : calls < acc + limit
    · simp [hlt]
      omega
    · rw [if_neg hlt]
      rw [ih (acc + limit) (by omega)]
      simp
      omega

theorem routerLoop_eq_spec (calls : Nat) :
    ∀ (tiers : List (String × Nat)) (acc : Nat),
      routerLoop calls acc tiers = ((cumTiers tiers acc).find? fun p => calls < p.2).map (·.1) := by
  intro tiers
  induction tiers with
  | nil => intro acc; simp [routerLoop, cumTiers]
  | cons t rest ih =>
    intro acc
    rcases t with ⟨name, limit⟩
    rw [routerLoop, cumTiers]
    by_cases hlt : calls < acc + limit
    · rw [if_pos hlt, List.find?_cons_of_pos _ (by simpa using hlt)]
      rfl
    · rw [if_neg hlt, List.find?_cons_of_neg _ (by simpa using hlt)]
      exact ih (acc + limit)

/-- C3: the call budget router is a pure function of `(calls_made, tiers)`: it
selects the first tier whose cumulative limit strictly exceeds `calls_made`,
yields `none` exactly when `calls_made ≥ sum of all limits`, and on tiers
`[(A,20),(B,20)]` yields `A` at 0 and 19, `B` at 20, and `none` at 40. -/
theorem C3_router :
    (∀ (tiers : List (String × Nat)) (calls : Nat),
        current_provider tiers calls = specRouter tiers calls) ∧
    (∀ (tiers : List (String × Nat)) (calls : Nat),
        current_provider tiers calls = none ↔ (tiers.map (·.2)).sum ≤ calls) ∧
    current_provider [("A", 20), ("B", 20)] 0 = some "A" ∧
    current_provider [("A", 20), ("B", 20)] 19 = some "A" ∧
    current_provider [("A", 20), ("B", 20)] 20 = some "B" ∧
    current_provider [("A", 20), ("B", 20)] 40 = none := by
  refine ⟨?_, ?_, by decide, by decide, by decide, by decide⟩
  · intro tiers calls
    exact routerLoop_eq_spec calls tiers 0
  · intro tiers calls
    have := routerLoop_none_iff calls tiers 0 (Nat.zero_le _)
    simpa [current_provider] using this

/-! ## C7: the under-trained relevance filter passes everything -/

/-- C7: with fewer than 5 positive training examples, `predict_relevance`
returns `is_relevant = true` with score `0.5`, for every input text, every
threshold, every embedding backend (even an unavailable one), and any number
of negative examples. -/
theorem C7_undertrained {α : Type} (encode : Option (String → α)) (cos : α → α → ℚ)
    (data : FilterData α) (text : String) (threshold : ℚ)
    (h : data.positive.length < 5) :
    (predict_relevance encode cos data text threshold).1 = true ∧
    (predict_relevance encode cos data text threshold).2.1 = 1 / 2 := by
  unfold predict_relevance
  rcases encode with _ | enc
  · exact ⟨rfl, rfl⟩
  · by_cases hempty : data.positive.isEmpty && data.negative.isEmpty
    · simp [hempty]
    · simp only [hempty, Bool.false_eq_true, if_false, if_neg]
      rw [if_pos h]
      exact ⟨rfl, rfl⟩

theorem C7_undertrained_witness :
    (emptyTrainingData Unit).positive.length < 5 ∧
    (predict_relevance (some fun _ : String => ()) (fun _ _ => 0)
        (emptyTrainingData Unit) "Telefónica invierte en datos" (65 / 100)).1 = true ∧
    (predict_relevance (some fun _ : String => ()) (fun _ _ => 0)
        (emptyTrainingData Unit) "Telefónica invierte en datos" (65 / 100)).2.1 = 1 / 2 := by
  have h := C7_undertrained (some fun _ : String => ()) (fun _ _ => 0)
    (emptyTrainingData Unit) "Telefónica invierte en datos" (65 / 100) (by decide)
  exact ⟨by decide, h.1, h.2⟩

/-! ## C1: training-example bookkeeping of the semantic filter

The code deliberately embeds only the text for negative examples (its comment:
"Only embed the text to keep semantic space clean"), so the claim's
`text + reason` concatenation is refuted; everything else in the claim
(append, 2,000-per-label FIFO eviction, matrix rebuild, persistence) holds. -/

theorem drop_cap_eq {β : Type} (l : List β) :
    (if l.length > 2000 then l.drop (l.length - 2000) else l) =
      l.drop (l.length - 2000) := by
  by_cases h : l.length > 2000
  · rw [if_pos h]
  · rw [if_neg h]
    have h0 : l.length - 2000 = 0 := by omega
    rw [h0, List.drop_zero]

theorem isEmpty_drop_cap_false {β : Type} (l : List β) (h : l.length ≠ 0) :
    (l.drop (l.length - 2000)).isEmpty = false := by
  have hlen : (l.drop (l.length - 2000)).length = l.length - (l.length - 2000) :=
    List.length_drop _ _
  rcases hd : l.drop (l.length - 2000) with _ | ⟨x, xs⟩
  · rw [hd] at hlen; simp at hlen; omega
  · rfl

/-- C1 counterexample: with the embedding backend `String.length`, the stored
embedding of `add_negative_example "ab" "cd"` is `2 = encode "ab"`, not
`4 = encode ("ab" ++ "cd")` — the rejection reason is not embedded. -/
theorem C1_counterexample :
    ((add_negative_example (some String.length) (emptyTrainingData Nat) "ab" "cd").negative.map
        fun e => e.2.2) = [2] ∧
    ("ab" ++ "cd").length = 4 ∧ (2 : Nat) ≠ 4 := by decide

/-- C1 (amended): `add_negative_example(text, reason)` computes the stored
embedding from the text alone (exactly as `add_positive_example` does),
appends the example, evicts the oldest beyond a cap of 2,000 per label,
rebuilds that label's embedding matrix, and persists the result (the other
label's collections are untouched). -/
theorem C1_amended {α : Type} (enc : String → α) (data : FilterData α)
    (text reason : String) :
    (add_negative_example (some enc) data text reason).negative =
      (data.negative ++ [(text, reason, enc text)]).drop
        ((data.negative.length + 1) - 2000) ∧
    (add_negative_example (some enc) data text reason).negative_embeddings =
      some (((data.negative ++ [(text, reason, enc text)]).drop
        ((data.negative.length + 1) - 2000)).map fun e => e.2.2) ∧
    (add_negative_example (some enc) data text reason).positive = data.positive ∧
    (add_negative_example (some enc) data text reason).positive_embeddings =
      data.positive_embeddings ∧
    (add_positive_example (some enc) data text).positive =
      (data.positive ++ [(text, enc text)]).drop ((data.positive.length + 1) - 2000) := by
  unfold add_negative_example add_positive_example save_training_data
  dsimp only
  rw [drop_cap_eq, drop_cap_eq,
      isEmpty_drop_cap_false (data.negative ++ [(text, reason, enc text)]) (by simp)]
  simp only [Bool.not_false, if_true, List.length_append, List.length_cons,
    List.length_nil, Nat.zero_add]
  exact ⟨trivial, trivial, trivial, trivial, trivial⟩

/-! ## C4: budget consumption of the orchestrator -/

/-- C4: the budget counter is incremented exactly when a classification call
is attempted and decremented exactly when the call ultimately fails (after its
retries); it is never refunded on a successful call regardless of the verdict.
A call that fails — in particular one that rate-limits on all 3 attempts —
leaves the counter at its value before the attempt and produces exactly one
pending record for the item; every short-circuit (known URL, pre-filter,
duplicate, exhausted budget) leaves the counter untouched. -/
theorem C4_budget {α : Type} (env : ItemEnv α) (st : RunState α) (item : Item) :
    ((∀ t, t < 3 → env.responses t = ApiResp.rateLimited) →
      analyze_text_with_ai env.responses = none) ∧
    (st.processed_urls.contains item.source_url = false →
     env.prefilter = true →
     is_duplicate_opportunity env.now item.content "" st.recent_opportunities 7 = (false, none) →
     (current_provider MODEL_ROTATION st.api_call_counter).isSome = true →
     (st.db.map (·.source_url)).contains item.source_url = false →
     analyze_text_with_ai env.responses = none →
     (processItem env st item).1.api_call_counter = st.api_call_counter ∧
     (processItem env st item).1.db.filter (fun r => r.status = "pending") =
       st.db.filter (fun r => r.status = "pending") ++
         [⟨item.source_url, "", "", item.source_type, item.country, some item.content,
           none, "pending", DateField.valid env.now, DateField.absent, DateField.absent⟩]) ∧
    (st.processed_urls.contains item.source_url = false →
     env.prefilter = true →
     is_duplicate_opportunity env.now item.content "" st.recent_opportunities 7 = (false, none) →
     (current_provider MODEL_ROTATION st.api_call_counter).isSome = true →
     ∀ d, analyze_text_with_ai env.responses = some d →
     (processItem env st item).1.api_call_counter = st.api_call_counter + 1 ∧
     (processItem env st item).1.db.filter (fun r => r.status = "pending") =
       st.db.filter (fun r => r.status = "pending")) ∧
    (st.processed_urls.contains item.source_url = true →
      (processItem env st item).1.api_call_counter = st.api_call_counter) ∧
    (env.prefilter = false →
      (processItem env st item).1.api_call_counter = st.api_call_counter) ∧
    ((is_duplicate_opportunity env.now item.content "" st.recent_opportunities 7).1 = true →
      (processItem env st item).1.api_call_counter = st.api_call_counter) ∧
    (current_provider MODEL_ROTATION st.api_call_counter = none →
      (processItem env st item).1.api_call_counter = st.api_call_counter) := by
  refine ⟨?_, ?_, ?_, ?_, ?_, ?_, ?_⟩
  · intro h
    simp [analyze_text_with_ai, analyzeAttempt,
      h 0 (by omega), h 1 (by omega), h 2 (by omega)]
  · intro hG hP hD hR hU hnone
    rcases hcp : current_provider MODEL_ROTATION st.api_call_counter with _ | name
    · rw [hcp] at hR; simp at hR
    simp only [processItem, hG, hP, hD, hcp, hnone, Bool.not_true, Bool.false_eq_true,
      if_false, ite_false]
    constructor
    · simp
    · rw [add_pending_article, if_neg (by simpa using hU)]
      rw [List.filter_append]
      simp
  · intro hG hP hD hR d hsome
    rcases hcp : current_provider MODEL_ROTATION st.api_call_counter with _ | name
    · rw [hcp] at hR; simp at hR
    simp only [processItem, hG, hP, hD, hcp, hsome, Bool.not_true, Bool.false_eq_true,
      if_false, ite_false]
    by_cases hopp :
        (decide (d ≠ []) && decide (jlookup d "is_opportunity" = some (JVal.jbool true))) = true
    · rw [if_pos hopp]
      refine ⟨rfl, ?_⟩
      rw [add_opportunity]
      by_cases hc : (st.db.map (·.source_url)).contains item.source_url = true
      · rw [if_pos hc]
      · rw [if_neg hc, List.filter_append]
        simp
    · rw [if_neg hopp]
      refine ⟨rfl, ?_⟩
      rw [add_ai_rejected_article]
      by_cases hc : (st.db.map (·.source_url)).contains item.source_url = true
      · rw [if_pos hc]
      · rw [if_neg hc, List.filter_append]
        simp
  · intro hG
    have hG' : item.source_url ∈ st.processed_urls := by simpa using hG
    simp [processItem, hG']
  · intro hP
    by_cases hG : item.source_url ∈ st.processed_urls
    · simp [processItem, hG]
    · simp [processItem, hG, hP]
  · intro hdup
    by_cases hG : item.source_url ∈ st.processed_urls
    · simp [processItem, hG]
    · by_cases hP : env.prefilter = true
      · rcases hD : is_duplicate_opportunity env.now item.content "" st.recent_opportunities 7
          with ⟨b, info⟩
        rw [hD] at hdup
        simp at hdup
        subst hdup
        simp [processItem, hG, hP, hD]
      · simp at hP
        simp [processItem, hG, hP]
  · intro hcp
    by_cases hG : item.source_url ∈ st.processed_urls
    · simp [processItem, hG]
    · by_cases hP : env.prefilter = true
      · rcases hD : is_duplicate_opportunity env.now item.content "" st.recent_opportunities 7
          with ⟨b, info⟩
        cases b
        · simp [processItem, hG, hP, hD, hcp]
        · simp [processItem, hG, hP, hD]
      · simp at hP
        simp [processItem, hG, hP]

theorem C4_budget_witness :
    analyze_text_with_ai (fun _ => ApiResp.rateLimited) = none ∧
    (processItem (α := Unit) ⟨0, true, fun _ => ApiResp.rateLimited, none, none, false, none⟩
        ⟨[], [], 0, 0, 0, [], emptyTrainingData Unit⟩
        ⟨"http://u", "txt", "noticia", none⟩).1.api_call_counter = 0 ∧
    ((processItem (α := Unit) ⟨0, true, fun _ => ApiResp.rateLimited, none, none, false, none⟩
        ⟨[], [], 0, 0, 0, [], emptyTrainingData Unit⟩
        ⟨"http://u", "txt", "noticia", none⟩).1.db.filter
          fun r => r.status = "pending").length = 1 := by
  have h := C4_budget (α := Unit) ⟨0, true, fun _ => ApiResp.rateLimited, none, none, false, none⟩
    ⟨[], [], 0, 0, 0, [], emptyTrainingData Unit⟩ ⟨"http://u", "txt", "noticia", none⟩
  have h1 : analyze_text_with_ai (fun _ => ApiResp.rateLimited) = none := h.1 fun t _ => rfl
  have h2 := h.2.1 (by decide) rfl (by decide) (by decide) (by decide) h1
  refine ⟨h1, h2.1, ?_⟩
  rw [h2.2]
  rfl

/-! ## C2: field-missing verdicts, parse failures and rejections -/

/-- C2 counterexample: on the same item and state, a verdict with
`is_opportunity = true` but all five enrichment fields missing is recorded as
an opportunity (counter 1, one `'detected'` row); an unparseable response is
requeued as pending with the budget slot refunded (counter 0); an
`is_opportunity = false` verdict is recorded as `'ai_rejected'` (counter 1).
The three treatments are pairwise different, so a field-missing verdict is not
treated "exactly as a parse failure", and a malformed verdict is handled as a
call failure, not "identically to a rejection". -/
theorem C2_counterexample :
    ((processItem (α := Unit)
        ⟨0, true, fun _ => ApiResp.ok [("is_opportunity", JVal.jbool true)],
         some "tok", some "C0", true, none⟩
        ⟨[], [], 0, 0, 0, [], emptyTrainingData Unit⟩
        ⟨"u1", "txt", "noticia", none⟩).1.db.map (fun r => r.status) = ["detected"] ∧
     (processItem (α := Unit)
        ⟨0, true, fun _ => ApiResp.ok [("is_opportunity", JVal.jbool true)],
         some "tok", some "C0", true, none⟩
        ⟨[], [], 0, 0, 0, [], emptyTrainingData Unit⟩
        ⟨"u1", "txt", "noticia", none⟩).1.api_call_counter = 1) ∧
    ((processItem (α := Unit)
        ⟨0, true, fun _ => ApiResp.badJson, some "tok", some "C0", true, none⟩
        ⟨[], [], 0, 0, 0, [], emptyTrainingData Unit⟩
        ⟨"u1", "txt", "noticia", none⟩).1.db.map (fun r => r.status) = ["pending"] ∧
     (processItem (α := Unit)
        ⟨0, true, fun _ => ApiResp.badJson, some "tok", some "C0", true, none⟩
        ⟨[], [], 0, 0, 0, [], emptyTrainingData Unit⟩
        ⟨"u1", "txt", "noticia", none⟩).1.api_call_counter = 0) ∧
    ((processItem (α := Unit)
        ⟨0, true, fun _ => ApiResp.ok [("is_opportunity", JVal.jbool false),
          ("reason", JVal.jstr "r")], some "tok", some "C0", true, none⟩
        ⟨[], [], 0, 0, 0, [], emptyTrainingData Unit⟩
        ⟨"u1", "txt", "noticia", none⟩).1.db.map (fun r => r.status) = ["ai_rejected"]) ∧
    (["detected"] : List String) ≠ ["pending"] ∧
    (["pending"] : List String) ≠ ["ai_rejected"] := by decide

/-- C2 (amended): a verdict with `is_opportunity = true` follows the
opportunity branch regardless of missing enrichment fields (the orchestrator
records it with defaulted fields and does not refund the call); the strict
five-field validation lives in the notifier, which refuses to send (returns
`false`) when any required field is missing or empty; an unparseable response
comes back as `None` and is handled as a call failure — budget slot refunded
and a pending record queued — not as a rejection. -/
theorem C2_amended {α : Type} (env : ItemEnv α) (st : RunState α) (item : Item) :
    (st.processed_urls.contains item.source_url = false →
     env.prefilter = true →
     is_duplicate_opportunity env.now item.content "" st.recent_opportunities 7 = (false, none) →
     (current_provider MODEL_ROTATION st.api_call_counter).isSome = true →
     ∀ d, analyze_text_with_ai env.responses = some d →
       (decide (d ≠ []) && decide (jlookup d "is_opportunity" = some (JVal.jbool true))) = true →
       (processItem env st item).1.api_call_counter = st.api_call_counter + 1 ∧
       (processItem env st item).1.db =
         add_opportunity st.db env.now item.source_url
           (jstrOf (jgetD d "opportunity_summary" (JVal.jstr "Sin resumen")))
           item.source_type item.country (some item.content) (some d)) ∧
    (∀ (token fb : Option String) (postOk : Bool) (d : JDict) (url : String)
        (country : Option String),
      (jtruthy (jgetD d "company_name" (JVal.jstr "")) &&
       jtruthy (jgetD d "opportunity_summary" (JVal.jstr "")) &&
       jtruthy (jgetD d "COMPANY_fit" (JVal.jstr "")) &&
       jtruthy (jgetD d "proposed_solution" (JVal.jstr "")) &&
       jtruthy (jgetD d "value_proposition" (JVal.jstr ""))) = false →
      send_slack_notification token fb postOk d url country = false) ∧
    (st.processed_urls.contains item.source_url = false →
     env.prefilter = true →
     is_duplicate_opportunity env.now item.content "" st.recent_opportunities 7 = (false, none) →
     (current_provider MODEL_ROTATION st.api_call_counter).isSome = true →
     analyze_text_with_ai env.responses = none →
     (processItem env st item).1.api_call_counter = st.api_call_counter ∧
     (processItem env st item).1.db =
       add_pending_article st.db env.now item.source_url "" item.source_type
         item.country (some item.content)) := by
  refine ⟨?_, ?_, ?_⟩
  · intro hG hP hD hR d hsome hopp
    rcases hcp : current_provider MODEL_ROTATION st.api_call_counter with _ | name
    · rw [hcp] at hR; simp at hR
    simp only [processItem, hG, hP, hD, hcp, hsome, Bool.not_true, Bool.false_eq_true,
      if_false, ite_false]
    rw [if_pos hopp]
    exact ⟨by trivial, by trivial⟩
  · intro token fb postOk d url country hmiss
    unfold send_slack_notification
    by_cases ht : token.getD "" = ""
    · rw [if_pos ht]
    · rw [if_neg ht]
      dsimp only
      split
      · rfl
      · rw [if_pos (by simp [hmiss])]
  · intro hG hP hD hR hnone
    rcases hcp : current_provider MODEL_ROTATION st.api_call_counter with _ | name
    · rw [hcp] at hR; simp at hR
    simp only [processItem, hG, hP, hD, hcp, hnone, Bool.not_true, Bool.false_eq_true,
      if_false, ite_false]
    exact ⟨by simp, by trivial⟩

theorem C2_amended_witness :
    (processItem (α := Unit)
      ⟨0, true, fun _ => ApiResp.ok [("is_opportunity", JVal.jbool true)],
       some "tok", some "C0", true, none⟩
      ⟨[], [], 0, 0, 0, [], emptyTrainingData Unit⟩
      ⟨"u1", "txt", "noticia", none⟩).1.api_call_counter = 1 ∧
    send_slack_notification (some "tok") (some "C0") true
      [("is_opportunity", JVal.jbool true)] "u1" none = false ∧
    (processItem (α := Unit)
      ⟨0, true, fun _ => ApiResp.badJson, some "tok", some "C0", true, none⟩
      ⟨[], [], 0, 0, 0, [], emptyTrainingData Unit⟩
      ⟨"u1", "txt", "noticia", none⟩).1.api_call_counter = 0 := by
  have h1 := C2_amended (α := Unit)
    ⟨0, true, fun _ => ApiResp.ok [("is_opportunity", JVal.jbool true)],
     some "tok", some "C0", true, none⟩
    ⟨[], [], 0, 0, 0, [], emptyTrainingData Unit⟩ ⟨"u1", "txt", "noticia", none⟩
  have h2 := C2_amended (α := Unit)
    ⟨0, true, fun _ => ApiResp.badJson, some "tok", some "C0", true, none⟩
    ⟨[], [], 0, 0, 0, [], emptyTrainingData Unit⟩ ⟨"u1", "txt", "noticia", none⟩
  refine ⟨?_, ?_, ?_⟩
  · exact (h1.1 (by decide) rfl (by decide) (by decide)
      [("is_opportunity", JVal.jbool true)] rfl (by decide)).1
  · exact h1.2.1 (some "tok") (some "C0") true [("is_opportunity", JVal.jbool true)]
      "u1" none (by decide)
  · exact (h2.2.2 (by decide) rfl (by decide) (by decide) rfl).1

/-! ## C5: population of the recent-opportunity dedup window -/

/-- C5 counterexample: with a notifier that cannot send (no Slack token, and
`chat_postMessage` failing), the opportunity is still appended to the
in-memory `recent_opportunities` window — the notification attempt's result is
ignored by the orchestrator. -/
theorem C5_counterexample :
    send_slack_notification none none false
      [("is_opportunity", JVal.jbool true), ("opportunity_summary", JVal.jstr "S"),
       ("company_name", JVal.jstr "C")] "u1" none = false ∧
    (processItem (α := Unit)
      ⟨0, true, fun _ => ApiResp.ok
        [("is_opportunity", JVal.jbool true), ("opportunity_summary", JVal.jstr "S"),
         ("company_name", JVal.jstr "C")], none, none, false, none⟩
      ⟨[], [], 0, 0, 0, [], emptyTrainingData Unit⟩
      ⟨"u1", "txt", "noticia", none⟩).1.recent_opportunities =
      [⟨"S", "C", "u1", DateField.valid 0, DateField.valid 0⟩] := by decide

/-- C5 (amended): the orchestrator appends to the in-memory
`recent_opportunities` window whenever the verdict is an opportunity,
regardless of whether the notification attempt succeeds (its result is
discarded); the persisted window query `get_recent_opportunities` returns only
records whose status is `'notified'`. -/
theorem C5_amended {α : Type} (env : ItemEnv α) (st : RunState α) (item : Item) :
    (st.processed_urls.contains item.source_url = false →
     env.prefilter = true →
     is_duplicate_opportunity env.now item.content "" st.recent_opportunities 7 = (false, none) →
     (current_provider MODEL_ROTATION st.api_call_counter).isSome = true →
     ∀ d, analyze_text_with_ai env.responses = some d →
       (decide (d ≠ []) && decide (jlookup d "is_opportunity" = some (JVal.jbool true))) = true →
       (processItem env st item).1.recent_opportunities =
         st.recent_opportunities ++
           [⟨jstrOf (jgetD d "opportunity_summary" (JVal.jstr "Sin resumen")),
             jstrOf (jgetD d "company_name" (JVal.jstr "")), item.source_url,
             DateField.valid env.now, DateField.valid env.now⟩]) ∧
    (∀ (db : List DbRow) (o : Opp), o ∈ get_recent_opportunities db →
      ∃ r, r ∈ db ∧ r.status = "notified" ∧
        o = ⟨r.headline, r.company_name, r.source_url, r.notified_at, r.created_at⟩) := by
  constructor
  · intro hG hP hD hR d hsome hopp
    rcases hcp : current_provider MODEL_ROTATION st.api_call_counter with _ | name
    · rw [hcp] at hR; simp at hR
    simp only [processItem, hG, hP, hD, hcp, hsome, Bool.not_true, Bool.false_eq_true,
      if_false, ite_false]
    rw [if_pos hopp]
  · intro db o ho
    unfold get_recent_opportunities at ho
    rcases List.mem_map.mp ho with ⟨r, hr, hro⟩
    have hr2 : r ∈ (db.filter fun r => r.status = "notified").mergeSort recentBefore :=
      List.mem_of_mem_take hr
    have hr3 : r ∈ db.filter fun r => r.status = "notified" :=
      ((db.filter fun r => r.status = "notified").mergeSort_perm recentBefore).mem_iff.mp hr2
    have hr4 := List.mem_filter.mp hr3
    exact ⟨r, hr4.1, by simpa using hr4.2, hro.symm⟩

theorem C5_amended_witness :
    (processItem (α := Unit)
      ⟨0, true, fun _ => ApiResp.ok
        [("is_opportunity", JVal.jbool true), ("opportunity_summary", JVal.jstr "S"),
         ("company_name", JVal.jstr "C")], none, none, false, none⟩
      ⟨[], [], 0, 0, 0, [], emptyTrainingData Unit⟩
      ⟨"u1", "txt", "noticia", none⟩).1.recent_opportunities =
      [] ++ [⟨"S", "C", "u1", DateField.valid 0, DateField.valid 0⟩] ∧
    (∀ o, o ∈ get_recent_opportunities
        [⟨"u9", "h", "c", "noticia", none, none, none, "detected",
          DateField.valid 0, DateField.absent, DateField.absent⟩] →
      ∃ r, r ∈ [(⟨"u9", "h", "c", "noticia", none, none, none, "detected",
          DateField.valid 0, DateField.absent, DateField.absent⟩ : DbRow)] ∧
        r.status = "notified" ∧
        o = ⟨r.headline, r.company_name, r.source_url, r.notified_at, r.created_at⟩) := by
  constructor
  · exact (C5_amended (α := Unit)
      ⟨0, true, fun _ => ApiResp.ok
        [("is_opportunity", JVal.jbool true), ("opportunity_summary", JVal.jstr "S"),
         ("company_name", JVal.jstr "C")], none, none, false, none⟩
      ⟨[], [], 0, 0, 0, [], emptyTrainingData Unit⟩
      ⟨"u1", "txt", "noticia", none⟩).1 (by decide) rfl (by decide) (by decide)
      [("is_opportunity", JVal.jbool true), ("opportunity_summary", JVal.jstr "S"),
       ("company_name", JVal.jstr "C")] rfl (by decide)
  · intro o
    exact (C5_amended (α := Unit)
      ⟨0, true, fun _ => ApiResp.badJson, none, none, false, none⟩
      ⟨[], [], 0, 0, 0, [], emptyTrainingData Unit⟩
      ⟨"u1", "txt", "noticia", none⟩).2
      [⟨"u9", "h", "c", "noticia", none, none, none, "detected",
        DateField.valid 0, DateField.absent, DateField.absent⟩] o

/-! ## C6: the deduplication rule cascade -/

theorem ite_opt_match {C3 C4 : Prop} [Decidable C3] [Decidable C4]
    {β : Type} (Y3 Y4 : β) (R : Bool × Option β) :
    (if C3 then ((true : Bool), some Y3) else if C4 then (true, some Y4) else R) =
      (match (if C3 then some Y3 else if C4 then some Y4 else none : Option β) with
       | some i => (true, some i)
       | none => R) := by
  by_cases h3 : C3
  · rw [if_pos h3, if_pos h3]
  · rw [if_neg h3, if_neg h3]
    by_cases h4 : C4
    · rw [if_pos h4, if_pos h4]
    · rw [if_neg h4, if_neg h4]

theorem checkLoop_cons_eq (nh nc : String) (ents : List String) (opp : Opp)
    (rest : List Opp) :
    checkLoop nh nc ents (75 / 100) (opp :: rest) =
      (match specRuleHit nh nc ents opp with
       | some info => (true, some info)
       | none => checkLoop nh nc ents (75 / 100) rest) := by
  rw [checkLoop, specRuleHit]
  by_cases h1 : calculate_text_similarity nh opp.headline ≥ 75 / 100
  · rw [if_pos h1, if_pos h1]
  · rw [if_neg h1, if_neg h1]
    by_cases h2 : (companyMatch nc opp.company_name &&
        decide (calculate_text_similarity nh opp.headline ≥ 45 / 100)) = true
    · rw [if_pos h2, if_pos h2]
    · rw [if_neg h2, if_neg h2]
      have hov0 : ents.length = 0 ∨ (sideEntities opp.headline opp.company_name).length = 0 →
          ((List.filter (fun e => (sideEntities opp.headline opp.company_name).contains e)
              ents).length : ℚ) /
            ((max ents.length (sideEntities opp.headline opp.company_name).length : Nat) : ℚ)
            = 0 := by
        intro h
        rcases h with h | h
        · have h0 : ents = [] := List.length_eq_zero.mp h
          subst h0
          simp
        · have h0 : sideEntities opp.headline opp.company_name = [] :=
            List.length_eq_zero.mp h
          rw [h0]
          have hfe : ∀ e : String, (List.contains ([] : List String) e) = false :=
            fun _ => rfl
          simp [hfe]
      by_cases hA : ents.length = 0 ∨ (sideEntities opp.headline opp.company_name).length = 0
      · have h0 := hov0 hA
        rw [h0]
        have hhalf : ((0 : ℚ) ≥ 1 / 2) = False := by norm_num
        have hsev : ((0 : ℚ) ≥ 70 / 100) = False := by norm_num
        rcases hA with hA | hA
        · simp [hA, hhalf, hsev]
          norm_num
        · simp [hA, hhalf, hsev]
          norm_num
      · push_neg at hA
        have hA1 : ents.length > 0 := by omega
        have hA2 : (sideEntities opp.headline opp.company_name).length > 0 := by omega
        simp only [hA1, hA2, decide_True, Bool.true_and, decide_eq_true_eq]
        split_ifs with h3 h4 <;> rfl

theorem checkLoop_eq_firstRuleHit (nh nc : String) (ents : List String) :
    ∀ opps, checkLoop nh nc ents (75 / 100) opps = firstRuleHit nh nc ents opps := by
  intro opps
  induction opps with
  | nil => rfl
  | cons opp rest ih =>
    rw [checkLoop_cons_eq, firstRuleHit]
    rcases h : specRuleHit nh nc ents opp with _ | info
    · simpa using ih
    · rfl

theorem firstRuleHit_none_iff (nh nc : String) (ents : List String) :
    ∀ opps, firstRuleHit nh nc ents opps = (false, none) ↔
      ∀ opp ∈ opps, specRuleHit nh nc ents opp = none := by
  intro opps
  induction opps with
  | nil => simp [firstRuleHit]
  | cons opp rest ih =>
    rw [firstRuleHit]
    rcases h : specRuleHit nh nc ents opp with _ | info
    · simp [h, ih]
    · simp [h]

/-- C6: `is_duplicate_opportunity` examines the candidates that survive the
lookback filter in input order, returning the first candidate for which a rule
fires, with the rules evaluated per candidate in the fixed order
(a) `text_sim ≥ 0.75` (`high_text_similarity`),
(b) `company_match ∧ text_sim ≥ 0.45` (`same_company_similar_content`),
(c) `company_match ∧ entity_overlap ≥ 0.5` (`same_company_shared_entities`),
(d) `entity_overlap ≥ 0.70`, no company match needed (`high_entity_overlap`);
the result is `(false, none)` exactly when no rule fires for any candidate. -/
theorem C6_dedup_order (now : Int) (nh nc : String) (opps : List Opp) (days : Nat) :
    is_duplicate_opportunity now nh nc opps days =
      firstRuleHit nh nc (sideEntities nh nc) (filterRecent now days opps) ∧
    (is_duplicate_opportunity now nh nc opps days = (false, none) ↔
      ∀ opp ∈ filterRecent now days opps,
        specRuleHit nh nc (sideEntities nh nc) opp = none) := by
  have h1 : is_duplicate_opportunity now nh nc opps days =
      firstRuleHit nh nc (sideEntities nh nc) (filterRecent now days opps) := by
    unfold is_duplicate_opportunity check_content_similarity
    exact checkLoop_eq_firstRuleHit nh nc (sideEntities nh nc) (filterRecent now days opps)
  refine ⟨h1, ?_⟩
  rw [h1]
  exact firstRuleHit_none_iff nh nc (sideEntities nh nc) (filterRecent now days opps)

/-! ## C10: texts that normalize to the empty string -/

/-- C10: for any two non-empty texts whose normalized forms are both empty,
`calculate_text_similarity` returns `1.0` (not `0`), so
`is_duplicate_opportunity` classifies the pair as a duplicate with reason
`high_text_similarity` against any lookback-surviving candidate carrying the
second text as its headline. -/
theorem C10_empty_normalize (a b : String) (now : Int) (cand : Opp)
    (ha : a ≠ "") (hb : b ≠ "")
    (hna : normalize_text a = "") (hnb : normalize_text b = "")
    (hch : cand.headline = b) (hcd : cand.notified_at = DateField.valid now) :
    calculate_text_similarity a b = 1 ∧
    is_duplicate_opportunity now a "" [cand] 7 =
      (true, some ⟨cand.headline, cand.company_name, 1, "high_text_similarity", none⟩) := by
  have hsim : calculate_text_similarity a b = 1 := by
    unfold calculate_text_similarity
    rw [if_neg (by simp [ha, hb])]
    rw [hna, hnb]
    rfl
  refine ⟨hsim, ?_⟩
  unfold is_duplicate_opportunity
  have hfilter : filterRecent now 7 [cand] = [cand] := by
    unfold filterRecent
    rw [List.filter_cons]
    rw [hcd]
    have hle : now - (7 : Nat) ≤ now := by omega
    simp [dateOr, hle]
  rw [hfilter]
  unfold check_content_similarity checkLoop
  have hts : calculate_text_similarity a cand.headline = 1 := by
    rw [hch]; exact hsim
  rw [hts]
  rw [if_pos (by norm_num)]

/-! ## C8: similarity symmetry and self-similarity -/

/-- C8 counterexample: `calculate_text_similarity` is NOT symmetric.
`SequenceMatcher.ratio` depends on the argument order (the DP and the
recursion around the chosen block are not order-independent): for the pair
below the two orders give 2/3 and 4/9. -/
theorem C8_counterexample :
    calculate_text_similarity "xyuv" "uvxyv" = 2 / 3 ∧
    calculate_text_similarity "uvxyv" "xyuv" = 4 / 9 ∧
    calculate_text_similarity "xyuv" "uvxyv" ≠ calculate_text_similarity "uvxyv" "xyuv" := by
  have hn1 : normalize_text "xyuv" = "xyuv" := by decide
  have hn2 : normalize_text "uvxyv" = "uvxyv" := by decide
  have hm1 : matchesSum "xyuv".data "uvxyv".data 0 "xyuv".data.length 0 "uvxyv".data.length
      = 3 := by decide
  have hm2 : matchesSum "uvxyv".data "xyuv".data 0 "uvxyv".data.length 0 "xyuv".data.length
      = 2 := by decide
  have hl1 : "xyuv".data.length = 4 := by decide
  have hl2 : "uvxyv".data.length = 5 := by decide
  have h1 : calculate_text_similarity "xyuv" "uvxyv" = 2 / 3 := by
    unfold calculate_text_similarity
    rw [if_neg (by decide), hn1, hn2]
    unfold sm_ratio
    rw [if_neg (by decide), hm1, hl1, hl2]
    norm_num
  have h2 : calculate_text_similarity "uvxyv" "xyuv" = 4 / 9 := by
    unfold calculate_text_similarity
    rw [if_neg (by decide), hn1, hn2]
    unfold sm_ratio
    rw [if_neg (by decide), hm2, hl1, hl2]
    norm_num
  refine ⟨h1, h2, ?_⟩
  rw [h1, h2]
  norm_num

/-- C8 (amended): the self-similarity half of the claim holds — for every
non-empty text `a`, `calculate_text_similarity a a = 1` — but symmetry fails
in general (see `C8_counterexample`). -/
theorem C8_amended (a : String) (ha : a ≠ "") : calculate_text_similarity a a = 1 := by
  unfold calculate_text_similarity
  rw [if_neg (by simp [ha])]
  exact sm_ratio_self _

theorem C8_amended_witness :
    ("abc" : String) ≠ "" ∧ calculate_text_similarity "abc" "abc" = 1 :=
  ⟨by decide, C8_amended "abc" (by decide)⟩

/-! ## C9: idempotence of the normalizer -/

/-- C9: the normalizer is idempotent — `normalize_text (normalize_text x)
= normalize_text x` for every input — and empty input yields empty output. -/
theorem C9_idempotent (x : String) :
    normalize_text (normalize_text x) = normalize_text x ∧ normalize_text "" = "" := by
  refine ⟨?_, rfl⟩
  obtain ⟨ws, hok, hshape⟩ := normalize_shape x
  rw [hshape]
  exact normalize_fix ws hok

theorem C10_empty_normalize_witness :
    ("the" : String) ≠ "" ∧ ("123" : String) ≠ "" ∧
    normalize_text "the" = "" ∧ normalize_text "123" = "" ∧
    calculate_text_similarity "the" "123" = 1 ∧
    is_duplicate_opportunity 0 "the" ""
        [⟨"123", "", "", DateField.valid 0, DateField.absent⟩] 7 =
      (true, some ⟨"123", "", 1, "high_text_similarity", none⟩) := by
  have h := C10_empty_normalize "the" "123" 0
    ⟨"123", "", "", DateField.valid 0, DateField.absent⟩
    (by decide) (by decide) (by decide) (by decide) rfl rfl
  exact ⟨by decide, by decide, by decide, by decide, h.1, h.2⟩

end Hunter
